import Mathlib

/-! Redirect tracing (`unfurl.go`): a shallow embedding.

The development models `Requester.FollowRedirects` of `unfurl.go` together with
the regular expression `metaRedirectRe` it uses.

* A Go `string` is a byte sequence.  It is modelled by `GoString = List Char`,
  one list element per byte; `len` is `List.length`.  All bytes the program
  itself compares against are ASCII.
* `regexp` (the Go standard library) is modelled by a backtracking matcher over a
  flat list of pattern nodes with leftmost-first priorities.  The classes of
  `metaRedirectRe` are either ASCII-only or accept every non-ASCII byte, so
  matching byte by byte and matching rune by rune delimit the same substrings.
* The network is a parameter: `World` gives the outcome of the `i`-th call of
  `Requester.request` (counted from 0) for the URL it is called with.
* `time.Sleep` and `resp.Body.Close` have no effect on the returned values and
  are left out.
-/

namespace Unfurl

/-! ## Strings -/

/-- Go `string`: a sequence of bytes. -/
abbrev GoString := List Char

/-- Go `strings.HasPrefix(s, p)`. -/
def hasPrefix (s p : GoString) : Bool := p.isPrefixOf s

/-! ## The regular-expression engine -/

/-- One node of a flat pattern: a single character of a class, a quantified class,
or a boundary of capture group 1. -/
inductive Node where
  | one (p : Char → Bool)
  | plus (p : Char → Bool)
  | star (p : Char → Bool)
  | lazyStar (p : Char → Bool)
  | capOpen
  | capClose

/-- A literal character sequence as a pattern. -/
def litL (l : List Char) : List Node := l.map (fun c => Node.one (fun x => x == c))

/-- The literal string `s` as a pattern. -/
def lit (s : String) : List Node := litL s.toList

/-- Capture registers of group 1.  A position is recorded as the input that
remains at that position. -/
structure Caps where
  openAt : List Char
  closeAt : List Char

/-- Greedy iteration of a class: take as many characters as possible, giving one
back at a time while the continuation `k` fails. -/
def starGreedy {α : Type} (p : Char → Bool) (k : List Char → Option α) : List Char → Option α
  | [] => k []
  | x :: s =>
    if p x then
      match starGreedy p k s with
      | some r => some r
      | none => k (x :: s)
    else k (x :: s)

/-- Non-greedy iteration of a class: try the continuation `k` first, and take one
more character only when it fails. -/
def starLazy {α : Type} (p : Char → Bool) (k : List Char → Option α) : List Char → Option α
  | [] => k []
  | x :: s =>
    match k (x :: s) with
    | some r => some r
    | none => if p x then starLazy p k s else none

/-- Match a pattern at the head of the input.  Returns the input left after the
match and the capture registers of the highest-priority match. -/
def matchHere : List Node → List Char → Caps → Option (List Char × Caps)
  | [], s, c => some (s, c)
  | .one p :: rest, s, c =>
    match s with
    | [] => none
    | x :: t => if p x then matchHere rest t c else none
  | .plus p :: rest, s, c =>
    match s with
    | [] => none
    | x :: t => if p x then starGreedy p (fun u => matchHere rest u c) t else none
  | .star p :: rest, s, c => starGreedy p (fun u => matchHere rest u c) s
  | .lazyStar p :: rest, s, c => starLazy p (fun u => matchHere rest u c) s
  | .capOpen :: rest, s, c => matchHere rest s { c with openAt := s }
  | .capClose :: rest, s, c => matchHere rest s { c with closeAt := s }

/-- The text between two recorded positions. -/
def between (a b : List Char) : List Char := a.take (a.length - b.length)

/-- Go `(*Regexp).FindStringSubmatch` for a pattern with one capture group: the
leftmost match, as `[whole match, group 1]`; the empty list (Go `nil`) when there
is no match. -/
def FindStringSubmatch (re : List Node) : GoString → List GoString
  | [] =>
    match matchHere re [] ⟨[], []⟩ with
    | some (rest, c) => [between [] rest, between c.openAt c.closeAt]
    | none => []
  | x :: t =>
    match matchHere re (x :: t) ⟨[], []⟩ with
    | some (rest, c) => [between (x :: t) rest, between c.openAt c.closeAt]
    | none => FindStringSubmatch re t

/-- Perl class `\s` of Go regexp: `[\t\n\f\r ]`. -/
def isSpace (c : Char) : Bool :=
  c == ' ' || c == '\t' || c == '\n' || c == Char.ofNat 12 || c == '\r'

/-- Perl class `\d` of Go regexp: `[0-9]`. -/
def isDigit (c : Char) : Bool := decide ('0' ≤ c) && decide (c ≤ '9')

/-- Class `["']`. -/
def isQuote (c : Char) : Bool := c == '"' || c == '\''

/-- Class `[^"']`. -/
def notQuote (c : Char) : Bool := !isQuote c

/-- Class `.` under the flag `(?s)`: any character. -/
def anyChar (_ : Char) : Bool := true

/-- The pattern
`(?s)<meta\s+http-equiv=["']refresh["']\s+content=["']\d+;\s*url=([^"']+)["'].*?>`. -/
def metaRedirectRe : List Node :=
  lit "<meta" ++ [Node.plus isSpace] ++ lit "http-equiv=" ++ [Node.one isQuote] ++
  lit "refresh" ++ [Node.one isQuote, Node.plus isSpace] ++ lit "content=" ++
  [Node.one isQuote, Node.plus isDigit] ++ lit ";" ++ [Node.star isSpace] ++ lit "url=" ++
  [Node.capOpen, Node.plus notQuote, Node.capClose, Node.one isQuote,
   Node.lazyStar anyChar] ++ lit ">"

/-! ## Data model -/

/-- `RedirectResponse`: a single step in a redirect chain. -/
structure RedirectResponse where
  URL : GoString
  TargetURL : GoString
  Headers : List (GoString × GoString)
  Body : GoString
deriving DecidableEq, Inhabited

/-- Constant `DefaultDelayMs`. -/
def DefaultDelayMs : Int := 150

/-- Constant `DefaultMaxBodySize`. -/
def DefaultMaxBodySize : Int := 4096

/-- Constant `DefaultMaxRedirects`. -/
def DefaultMaxRedirects : Int := 10

/-- The fields of `Requester` read by `FollowRedirects`. -/
structure Requester where
  DelayMs : Int
  MaxBodySize : Int
  MaxRedirects : Int

/-- A response body stream: the bytes it holds and, when `failAt = some e`, a read
error raised in place of the byte at offset `e` (or in place of the end of the
stream when `e` is its length). -/
structure BodyStream where
  data : GoString
  failAt : Option Nat
deriving Inhabited

/-- The parts of `*http.Response` read by `FollowRedirects`.  `Header` is the map
from canonical header names to their values. -/
structure Response where
  StatusCode : Int
  Header : List (GoString × List GoString)
  Body : BodyStream
deriving Inhabited

/-- The outcome of the `i`-th call of `Requester.request` for a URL: a response,
or the error of a failed fetch. -/
abbrev World := Nat → GoString → Except String Response

/-- Go `http.Header.Get`: the first value of the header, `""` when absent. -/
def headerGet (h : List (GoString × List GoString)) (key : String) : GoString :=
  match h.lookup key.toList with
  | some (v :: _) => v
  | _ => []

/-- The header snapshot: for every header with at least one value, its last value. -/
def snapshotHeaders (h : List (GoString × List GoString)) : List (GoString × GoString) :=
  h.filterMap (fun kv => kv.2.getLast?.map (fun v => (kv.1, v)))

/-- Go `io.ReadAll(io.LimitReader(body, n))`: `none` for a read error. -/
def readAllLimited (b : BodyStream) (n : Int) : Option GoString :=
  match b.failAt with
  | some e => if (e : Int) < n ∧ e ≤ b.data.length then none else some (b.data.take n.toNat)
  | none => some (b.data.take n.toNat)

/-- The variable `body` of the loop (lines 136-143): the response body read through
the limit when the `Content-Type` starts with `text/plain` or `text/html` and the
read succeeds, `""` otherwise. -/
def captureBody (r : Requester) (resp : Response) : GoString :=
  let contentType := headerGet resp.Header "Content-Type"
  if hasPrefix contentType "text/plain".toList || hasPrefix contentType "text/html".toList then
    match readAllLimited resp.Body r.MaxBodySize with
    | some bodyBytes => bodyBytes
    | none => []
  else []

/-- The two redirect tests of the loop (lines 152-168), in their order.  `some t`
stands for the branches that assign `targetURL = t`, record the entry with that
target and `continue`; `none` for falling through to lines 170-171 (record the
entry with an empty target and `break`). -/
def nextTarget (r : Requester) (resp : Response) : Option GoString :=
  let contentType := headerGet resp.Header "Content-Type"
  let body := captureBody r resp
  let location := headerGet resp.Header "Location"
  if resp.StatusCode ≥ 300 ∧ resp.StatusCode < 400 ∧ location ≠ [] then some location
  else if hasPrefix contentType "text/html".toList ∧ body.length > 0 then
    match FindStringSubmatch metaRedirectRe body with
    | _ :: m1 :: _ => some m1
    | _ => none
  else none

/-- The entry appended for a response fetched from `targetURL`: built at lines
145-150 with an empty `TargetURL`, which lines 155 and 164 overwrite with the
target found. -/
def entryOf (r : Requester) (targetURL : GoString) (resp : Response) : RedirectResponse :=
  { URL := targetURL
    TargetURL := (nextTarget r resp).getD []
    Headers := snapshotHeaders resp.Header
    Body := captureBody r resp }

/-- What `FollowRedirects` returns (`responses`, `err`; `none` is Go `nil`), together
with the URLs it called `Requester.request` with, in call order. -/
structure Trace where
  responses : List RedirectResponse
  err : Option String
  fetched : List GoString
deriving DecidableEq

/-- The loop of `FollowRedirects` and what follows it (lines 116-176), with `n`
iterations left at loop index `i`: a failed fetch returns `responses` as they are
(line 125); the end of the range and `break` both lead to `slices.Reverse`. -/
def followLoop (r : Requester) (w : World) :
    Nat → Nat → GoString → List RedirectResponse → List GoString → Trace
  | 0, _, _, responses, fetched => ⟨responses.reverse, none, fetched⟩
  | n + 1, i, targetURL, responses, fetched =>
    match w i targetURL with
    | .error e => ⟨responses, some e, fetched ++ [targetURL]⟩
    | .ok resp =>
      match nextTarget r resp with
      | some t =>
        followLoop r w n (i + 1) t (responses ++ [entryOf r targetURL resp])
          (fetched ++ [targetURL])
      | none =>
        ⟨(responses ++ [entryOf r targetURL resp]).reverse, none, fetched ++ [targetURL]⟩

/-- `Requester.FollowRedirects` (lines 108-177). -/
def FollowRedirects (r : Requester) (w : World) (url : GoString) : Trace :=
  if r.MaxRedirects < 1 then ⟨[], some "MaxRedirects must be at least 1", []⟩
  else followLoop r w r.MaxRedirects.toNat 0 url [] []

/-! ## Vocabulary of the statements -/

/-- The input `t` does not start with a character of the class `p`. -/
def stopsAt (p : Char → Bool) (t : List Char) : Prop := ∀ x ∈ t.head?, p x = false

/-- The tag `<meta http-equiv=Q1refreshQ2 content=Q3D;url=TQ4>`. -/
def metaTag (q1 q2 q3 q4 : Char) (d t : GoString) : GoString :=
  "<meta http-equiv=".toList ++ [q1] ++ "refresh".toList ++ [q2] ++ " content=".toList ++
  [q3] ++ d ++ ";url=".toList ++ t ++ [q4] ++ ">".toList

/-- The tag `<meta NAME="refresh" content="0;url=T">` for a spelling `NAME` of the
attribute name. -/
def attrTag (name t : GoString) : GoString :=
  "<meta ".toList ++ name ++ "=\"refresh\" content=\"0;url=".toList ++ t ++ "\">".toList

/-- A single or a double quote. -/
def IsQuoteChar (q : Char) : Prop := q = '"' ∨ q = '\''

/-- The shape of an input in which the pattern has a match: after some text `pre`
come `<meta`, whitespace `ws`, lower-case `http-equiv=`, a quote `q` and `refresh`. -/
def MatchShape (body pre ws : List Char) (q : Char) (tl : List Char) : Prop :=
  body = pre ++ ("<meta".toList ++ (ws ++ ("http-equiv=".toList ++
    (q :: ("refresh".toList ++ tl))))) ∧ (∀ x ∈ ws, isSpace x = true) ∧ isQuote q = true

/-- A run of successful fetches that each carry a redirect signal: the calls
`i, i+1, ...` request the URLs of `steps` in turn, starting with `u`, each answered
by the paired response, whose redirect target is the next URL; `v` is the URL the
last of them points to. -/
def RedirectRun (r : Requester) (w : World) :
    Nat → GoString → List (GoString × Response) → GoString → Prop
  | _, u, [], v => u = v
  | i, u, s :: rest, v =>
    s.1 = u ∧ w i u = .ok s.2 ∧ ∃ t, nextTarget r s.2 = some t ∧ RedirectRun r w (i + 1) t rest v

/-- The hops recorded for a run, in fetch order. -/
def hopsOf (r : Requester) (steps : List (GoString × Response)) : List RedirectResponse :=
  steps.map (fun s => entryOf r s.1 s.2)

/-- The outcome of a fetch is a failure. -/
def isError : Except String Response → Bool
  | .error _ => true
  | .ok _ => false

/-- One of the fetches `i, i+1, ...` made for the listed URLs failed. -/
def anyFetchFailed (w : World) : Nat → List GoString → Bool
  | _, [] => false
  | i, u :: rest => isError (w i u) || anyFetchFailed w (i + 1) rest

/-- The status-redirect test of lines 152-153: a status code in `[300, 400)` and a
non-empty `Location` header. -/
def StatusRedirect (resp : Response) : Prop :=
  resp.StatusCode ≥ 300 ∧ resp.StatusCode < 400 ∧ headerGet resp.Header "Location" ≠ []

/-! ## Example sites -/

/-- The URL `A`. -/
def urlA : GoString := "https://a.example/".toList

/-- The URL `B`. -/
def urlB : GoString := "https://b.example/".toList

/-- The URL `C`. -/
def urlC : GoString := "https://c.example/".toList

/-- A response with the given status code and a `Location` header, without body. -/
def redirectTo (status : Int) (loc : GoString) : Response :=
  ⟨status, [("Location".toList, [loc])], ⟨[], none⟩⟩

/-- A `200` response of content type `text/html` with the given body. -/
def htmlPage (body : GoString) : Response :=
  ⟨200, [("Content-Type".toList, ["text/html".toList])], ⟨body, none⟩⟩

/-- A requester with the default delay and body size and the given hop bound. -/
def requester (maxRedirects : Int) : Requester :=
  ⟨DefaultDelayMs, DefaultMaxBodySize, maxRedirects⟩

/-- `A` answers `301` to `B`; `B` answers `200` HTML without meta refresh. -/
def worldAB : World := fun _ u =>
  if u = urlA then .ok (redirectTo 301 urlB)
  else if u = urlB then .ok (htmlPage "<html></html>".toList)
  else .error "no such host"

/-- `A` redirects to `B`, `B` to `C`; `C` is a plain page. -/
def worldABC : World := fun _ u =>
  if u = urlA then .ok (redirectTo 301 urlB)
  else if u = urlB then .ok (redirectTo 302 urlC)
  else if u = urlC then .ok (htmlPage "<html></html>".toList)
  else .error "no such host"

/-- As `worldABC`, but the second fetch (call number 1) fails. -/
def worldSecondFails : World := fun i u =>
  if i = 1 then .error "connection reset" else worldABC i u

/-- As `worldABC`, but the third fetch (call number 2) fails. -/
def worldThirdFails : World := fun i u =>
  if i = 2 then .error "connection reset" else worldABC i u

/-- A `302` to `B` whose HTML body also holds a meta refresh to `C`. -/
def bothSignals : Response :=
  ⟨302, [("Location".toList, [urlB]), ("Content-Type".toList, ["text/html".toList])],
    ⟨"<meta http-equiv=\"refresh\" content=\"0;url=https://c.example/\">".toList, none⟩⟩

/-- `A` answers with `bothSignals`; `B` and `C` are plain pages. -/
def worldBoth : World := fun _ u =>
  if u = urlA then .ok bothSignals
  else if u = urlB then .ok (htmlPage "<html></html>".toList)
  else if u = urlC then .ok (htmlPage "<html></html>".toList)
  else .error "no such host"

/-- The page `<html>` + tag + `</html>` of the meta-refresh scenario. -/
def metaPage : GoString :=
  "<html><meta http-equiv=\"refresh\" content=\"0;url=https://b.example/\"></html>".toList

/-- A `text/plain` page of 10 bytes. -/
def tenBytes : Response :=
  ⟨200, [("Content-Type".toList, ["text/plain".toList])], ⟨"0123456789".toList, none⟩⟩

/-- An HTML page whose body cannot be read. -/
def unreadablePage : Response :=
  ⟨200, [("Content-Type".toList, ["text/html".toList])], ⟨metaPage, some 3⟩⟩

/-- The tag `<meta HTTP-EQUIV="refresh" content="0;url=https://b.example/">`. -/
def upperTag : GoString := attrTag "HTTP-EQUIV".toList urlB

/-! ## The matcher: general lemmas -/

theorem matchHere_litL_append (l : List Char) (rest : List Node) (t : List Char) (c : Caps) :
    matchHere (litL l ++ rest) (l ++ t) c = matchHere rest t c := by
  induction l with
  | nil => rfl
  | cons a l ih => simpa [litL, matchHere] using ih

theorem matchHere_litL_inv (l : List Char) (rest : List Node) (s : List Char) (c : Caps)
    (r : List Char × Caps) (h : matchHere (litL l ++ rest) s c = some r) :
    ∃ t, s = l ++ t ∧ matchHere rest t c = some r := by
  induction l generalizing s with
  | nil => exact ⟨s, rfl, h⟩
  | cons a l ih =>
    cases s with
    | nil => simp [litL, matchHere] at h
    | cons x s =>
      simp only [litL, List.map_cons, List.cons_append, matchHere] at h
      split at h
      · rename_i hx
        obtain ⟨t, ht, hr⟩ := ih s h
        have hxa : x = a := by simpa using hx
        exact ⟨t, by simp [hxa, ht], hr⟩
      · simp at h

theorem matchHere_one_cons (p : Char → Bool) (rest : List Node) (x : Char) (t : List Char)
    (c : Caps) (hx : p x = true) :
    matchHere (Node.one p :: rest) (x :: t) c = matchHere rest t c := by
  simp [matchHere, hx]

theorem matchHere_one_inv (p : Char → Bool) (rest : List Node) (s : List Char) (c : Caps)
    (r : List Char × Caps) (h : matchHere (Node.one p :: rest) s c = some r) :
    ∃ x t, s = x :: t ∧ p x = true ∧ matchHere rest t c = some r := by
  cases s with
  | nil => simp [matchHere] at h
  | cons x t =>
    simp only [matchHere] at h
    split at h
    · rename_i hx
      exact ⟨x, t, rfl, hx, h⟩
    · simp at h

theorem starGreedy_run {α : Type} (p : Char → Bool) (k : List Char → Option α)
    (w t : List Char) (r : α) (hw : ∀ x ∈ w, p x = true) (ht : stopsAt p t)
    (hk : k t = some r) : starGreedy p k (w ++ t) = some r := by
  induction w with
  | nil =>
    cases t with
    | nil => simpa [starGreedy] using hk
    | cons y t =>
      have hy : p y = false := ht y (by simp)
      simp [starGreedy, hy, hk]
  | cons a w ih =>
    have ha : p a = true := hw a (by simp)
    have hrec := ih (fun x hx => hw x (by simp [hx]))
    simp [starGreedy, ha, hrec]

theorem starGreedy_inv {α : Type} (p : Char → Bool) (k : List Char → Option α)
    (s : List Char) (r : α) (h : starGreedy p k s = some r) :
    ∃ w t, s = w ++ t ∧ (∀ x ∈ w, p x = true) ∧ k t = some r := by
  induction s with
  | nil => exact ⟨[], [], rfl, by simp, by simpa [starGreedy] using h⟩
  | cons x s ih =>
    simp only [starGreedy] at h
    by_cases hx : p x = true
    · simp only [hx, if_true] at h
      cases hrec : starGreedy p k s with
      | some r2 =>
        rw [hrec] at h
        have hr : r2 = r := by simpa using h
        subst hr
        obtain ⟨w, t, hs, hw, hk⟩ := ih hrec
        refine ⟨x :: w, t, by simp [hs], ?_, hk⟩
        intro y hy
        rcases List.mem_cons.1 hy with rfl | hy
        · exact hx
        · exact hw y hy
      | none =>
        rw [hrec] at h
        exact ⟨[], x :: s, rfl, by simp, h⟩
    · simp only [hx] at h
      exact ⟨[], x :: s, rfl, by simp, by simpa using h⟩

theorem starLazy_now {α : Type} (p : Char → Bool) (k : List Char → Option α)
    (s : List Char) (r : α) (hk : k s = some r) : starLazy p k s = some r := by
  cases s with
  | nil => simpa [starLazy] using hk
  | cons x s => simp [starLazy, hk]

theorem starLazy_inv {α : Type} (p : Char → Bool) (k : List Char → Option α)
    (s : List Char) (r : α) (h : starLazy p k s = some r) :
    ∃ w t, s = w ++ t ∧ k t = some r := by
  induction s with
  | nil => exact ⟨[], [], rfl, by simpa [starLazy] using h⟩
  | cons x s ih =>
    simp only [starLazy] at h
    cases hk : k (x :: s) with
    | some r2 =>
      rw [hk] at h
      have hr : r2 = r := by simpa using h
      subst hr
      exact ⟨[], x :: s, rfl, hk⟩
    | none =>
      rw [hk] at h
      by_cases hx : p x = true
      · simp only [hx, if_true] at h
        obtain ⟨w, t, hs, hkt⟩ := ih h
        exact ⟨x :: w, t, by simp [hs], hkt⟩
      · simp [hx] at h

theorem matchHere_plus_run (p : Char → Bool) (rest : List Node) (w t : List Char) (c : Caps)
    (r : List Char × Caps) (hne : w ≠ []) (hw : ∀ x ∈ w, p x = true) (ht : stopsAt p t)
    (hk : matchHere rest t c = some r) :
    matchHere (Node.plus p :: rest) (w ++ t) c = some r := by
  cases w with
  | nil => exact absurd rfl hne
  | cons a w =>
    have ha : p a = true := hw a (by simp)
    simp only [List.cons_append, matchHere, ha, if_true]
    exact starGreedy_run p _ w t r (fun x hx => hw x (by simp [hx])) ht hk

theorem matchHere_plus_inv (p : Char → Bool) (rest : List Node) (s : List Char) (c : Caps)
    (r : List Char × Caps) (h : matchHere (Node.plus p :: rest) s c = some r) :
    ∃ w t, w ≠ [] ∧ s = w ++ t ∧ (∀ x ∈ w, p x = true) ∧ matchHere rest t c = some r := by
  cases s with
  | nil => simp [matchHere] at h
  | cons x s =>
    simp only [matchHere] at h
    by_cases hx : p x = true
    · simp only [hx, if_true] at h
      obtain ⟨w, t, hs, hw, hk⟩ := starGreedy_inv p _ s r h
      refine ⟨x :: w, t, by simp, by simp [hs], ?_, hk⟩
      intro y hy
      rcases List.mem_cons.1 hy with rfl | hy
      · exact hx
      · exact hw y hy
    · simp [hx] at h

theorem matchHere_star_run (p : Char → Bool) (rest : List Node) (w t : List Char) (c : Caps)
    (r : List Char × Caps) (hw : ∀ x ∈ w, p x = true) (ht : stopsAt p t)
    (hk : matchHere rest t c = some r) :
    matchHere (Node.star p :: rest) (w ++ t) c = some r := by
  simp only [matchHere]
  exact starGreedy_run p _ w t r hw ht hk

theorem matchHere_star_inv (p : Char → Bool) (rest : List Node) (s : List Char) (c : Caps)
    (r : List Char × Caps) (h : matchHere (Node.star p :: rest) s c = some r) :
    ∃ w t, s = w ++ t ∧ (∀ x ∈ w, p x = true) ∧ matchHere rest t c = some r := by
  simp only [matchHere] at h
  exact starGreedy_inv p _ s r h

theorem matchHere_lazyStar_now (p : Char → Bool) (rest : List Node) (s : List Char) (c : Caps)
    (r : List Char × Caps) (hk : matchHere rest s c = some r) :
    matchHere (Node.lazyStar p :: rest) s c = some r := by
  simp only [matchHere]
  exact starLazy_now p _ s r hk

theorem matchHere_lazyStar_inv (p : Char → Bool) (rest : List Node) (s : List Char) (c : Caps)
    (r : List Char × Caps) (h : matchHere (Node.lazyStar p :: rest) s c = some r) :
    ∃ w t, s = w ++ t ∧ matchHere rest t c = some r := by
  simp only [matchHere] at h
  exact starLazy_inv p _ s r h

theorem matchHere_nil (s : List Char) (c : Caps) : matchHere [] s c = some (s, c) := by
  simp [matchHere]

theorem matchHere_capOpen (rest : List Node) (s : List Char) (c : Caps) :
    matchHere (Node.capOpen :: rest) s c = matchHere rest s ⟨s, c.closeAt⟩ := by
  simp [matchHere]

theorem matchHere_capClose (rest : List Node) (s : List Char) (c : Caps) :
    matchHere (Node.capClose :: rest) s c = matchHere rest s ⟨c.openAt, s⟩ := by
  simp [matchHere]

theorem between_append (a b : List Char) : between (a ++ b) b = a := by
  simp [between]

/-! ## The pattern `metaRedirectRe` -/

theorem metaRedirectRe_eq : metaRedirectRe =
    litL "<meta".toList ++ (Node.plus isSpace :: (litL "http-equiv=".toList ++
    (Node.one isQuote :: (litL "refresh".toList ++ (Node.one isQuote :: Node.plus isSpace ::
    (litL "content=".toList ++ (Node.one isQuote :: Node.plus isDigit :: (litL ";".toList ++
    (Node.star isSpace :: (litL "url=".toList ++ (Node.capOpen :: Node.plus notQuote ::
    Node.capClose :: Node.one isQuote :: Node.lazyStar anyChar ::
    litL ">".toList))))))))))) := by
  simp only [metaRedirectRe, lit, List.append_assoc, List.cons_append, List.nil_append]

theorem metaTag_append (q1 q2 q3 q4 : Char) (d t s : GoString) :
    metaTag q1 q2 q3 q4 d t ++ s =
    "<meta".toList ++ ([' '] ++ ("http-equiv=".toList ++ (q1 :: ("refresh".toList ++
    (q2 :: ([' '] ++ ("content=".toList ++ (q3 :: (d ++ (";".toList ++ ([] ++
    ("url=".toList ++ (t ++ (q4 :: (">".toList ++ s))))))))))))))) := by
  simp [metaTag]

theorem isQuote_of (q : Char) (h : IsQuoteChar q) : isQuote q = true := by
  rcases h with rfl | rfl <;> rfl

/-- The pattern matches a well-formed tag at the head of the input, and group 1
is delimited by the text after `url=` and its closing quote. -/
theorem matchHere_metaTag (q1 q2 q3 q4 : Char) (d t s : GoString) (c : Caps)
    (h1 : IsQuoteChar q1) (h2 : IsQuoteChar q2) (h3 : IsQuoteChar q3) (h4 : IsQuoteChar q4)
    (hd : d ≠ []) (hdd : ∀ x ∈ d, isDigit x = true)
    (ht : t ≠ []) (htq : ∀ x ∈ t, notQuote x = true) :
    matchHere metaRedirectRe (metaTag q1 q2 q3 q4 d t ++ s) c =
      some (s, ⟨t ++ (q4 :: (">".toList ++ s)), q4 :: (">".toList ++ s)⟩) := by
  rw [metaRedirectRe_eq, metaTag_append, matchHere_litL_append]
  refine matchHere_plus_run _ _ _ _ _ _ (by simp) (by simp [isSpace]) (by simp [stopsAt, isSpace]) ?_
  rw [matchHere_litL_append, matchHere_one_cons _ _ _ _ _ (isQuote_of q1 h1),
    matchHere_litL_append, matchHere_one_cons _ _ _ _ _ (isQuote_of q2 h2)]
  refine matchHere_plus_run _ _ _ _ _ _ (by simp) (by simp [isSpace]) (by simp [stopsAt, isSpace]) ?_
  rw [matchHere_litL_append, matchHere_one_cons _ _ _ _ _ (isQuote_of q3 h3)]
  refine matchHere_plus_run _ _ _ _ _ _ hd hdd (by simp [stopsAt, isDigit]) ?_
  rw [matchHere_litL_append]
  refine matchHere_star_run _ _ _ _ _ _ (by simp) (by simp [stopsAt, isSpace]) ?_
  rw [matchHere_litL_append, matchHere_capOpen]
  refine matchHere_plus_run _ _ _ _ _ _ ht htq ?_ ?_
  · simp [stopsAt, notQuote, isQuote_of q4 h4]
  · rw [matchHere_capClose, matchHere_one_cons _ _ _ _ _ (isQuote_of q4 h4)]
    refine matchHere_lazyStar_now _ _ _ _ _ ?_
    have h := matchHere_litL_append ">".toList [] s
      ⟨t ++ (q4 :: (">".toList ++ s)), q4 :: (">".toList ++ s)⟩
    rw [matchHere_nil] at h
    simpa using h

/-- Every match of the pattern starts with `<meta`, then whitespace, then the
lower-case text `http-equiv=`, a quote and `refresh`; its group 1 is a non-empty
text without quotes. -/
theorem matchHere_meta_inv (s : List Char) (c : Caps) (rest : List Char) (c2 : Caps)
    (h : matchHere metaRedirectRe s c = some (rest, c2)) :
    ∃ ws q tl g tl2,
      s = "<meta".toList ++ (ws ++ ("http-equiv=".toList ++ (q :: ("refresh".toList ++ tl)))) ∧
      (∀ x ∈ ws, isSpace x = true) ∧ isQuote q = true ∧ g ≠ [] ∧
      (∀ x ∈ g, notQuote x = true) ∧ c2.openAt = g ++ tl2 ∧ c2.closeAt = tl2 := by
  rw [metaRedirectRe_eq] at h
  obtain ⟨t1, hs1, h⟩ := matchHere_litL_inv _ _ _ _ _ h
  obtain ⟨ws, t2, _, hs2, hws, h⟩ := matchHere_plus_inv _ _ _ _ _ h
  obtain ⟨t3, hs3, h⟩ := matchHere_litL_inv _ _ _ _ _ h
  obtain ⟨q1, t4, hs4, hq1, h⟩ := matchHere_one_inv _ _ _ _ _ h
  obtain ⟨t5, hs5, h⟩ := matchHere_litL_inv _ _ _ _ _ h
  obtain ⟨q2, t6, _, _, h⟩ := matchHere_one_inv _ _ _ _ _ h
  obtain ⟨ws2, t7, _, _, _, h⟩ := matchHere_plus_inv _ _ _ _ _ h
  obtain ⟨t8, _, h⟩ := matchHere_litL_inv _ _ _ _ _ h
  obtain ⟨q3, t9, _, _, h⟩ := matchHere_one_inv _ _ _ _ _ h
  obtain ⟨d, t10, _, _, _, h⟩ := matchHere_plus_inv _ _ _ _ _ h
  obtain ⟨t11, _, h⟩ := matchHere_litL_inv _ _ _ _ _ h
  obtain ⟨ws3, t12, _, _, h⟩ := matchHere_star_inv _ _ _ _ _ h
  obtain ⟨t13, _, h⟩ := matchHere_litL_inv _ _ _ _ _ h
  rw [matchHere_capOpen] at h
  obtain ⟨g, t14, hg, hs14, hgq, h⟩ := matchHere_plus_inv _ _ _ _ _ h
  rw [matchHere_capClose] at h
  obtain ⟨q4, t15, _, _, h⟩ := matchHere_one_inv _ _ _ _ _ h
  obtain ⟨w, t16, _, h⟩ := matchHere_lazyStar_inv _ _ _ _ _ h
  have h2 : matchHere (litL ">".toList ++ []) t16 ⟨t13, t14⟩ = some (rest, c2) := by
    simpa using h
  obtain ⟨t17, _, h2⟩ := matchHere_litL_inv _ _ _ _ _ h2
  rw [matchHere_nil] at h2
  have hc : c2 = ⟨t13, t14⟩ := by
    have := Option.some.inj h2
    exact (congrArg Prod.snd this).symm
  refine ⟨ws, q1, t5, g, t14, ?_, hws, hq1, hg, hgq, ?_, ?_⟩
  · rw [hs1, hs2, hs3, hs4, hs5]
  · rw [hc]
    exact hs14
  · rw [hc]

theorem matchHere_meta_isPrefix (s : List Char) (c : Caps) (r : List Char × Caps)
    (h : matchHere metaRedirectRe s c = some r) : "<meta".toList <+: s := by
  obtain ⟨ws, q, tl, _, _, hs, _⟩ := matchHere_meta_inv s c r.1 r.2 h
  exact ⟨_, hs.symm⟩

theorem FindStringSubmatch_of_match (re : List Node) (s rest : List Char) (c : Caps)
    (h : matchHere re s ⟨[], []⟩ = some (rest, c)) :
    FindStringSubmatch re s = [between s rest, between c.openAt c.closeAt] := by
  cases s <;> simp [FindStringSubmatch, h]

theorem FindStringSubmatch_skip (re : List Node) (x : Char) (t : List Char)
    (h : matchHere re (x :: t) ⟨[], []⟩ = none) :
    FindStringSubmatch re (x :: t) = FindStringSubmatch re t := by
  simp [FindStringSubmatch, h]

/-- What `FindStringSubmatch metaRedirectRe` can return: nothing, or a match whose
group 1 is non-empty and free of quotes, in a body of the shape `MatchShape`. -/
theorem FindStringSubmatch_meta_sound (body : GoString) :
    FindStringSubmatch metaRedirectRe body = [] ∨
    ∃ whole g, FindStringSubmatch metaRedirectRe body = [whole, g] ∧ g ≠ [] ∧
      (∀ x ∈ g, notQuote x = true) ∧ ∃ pre ws q tl, MatchShape body pre ws q tl := by
  have key : ∀ s : List Char, ∀ rest c, matchHere metaRedirectRe s ⟨[], []⟩ = some (rest, c) →
      ∃ whole g, FindStringSubmatch metaRedirectRe s = [whole, g] ∧ g ≠ [] ∧
        (∀ x ∈ g, notQuote x = true) ∧ ∃ pre ws q tl, MatchShape s pre ws q tl := by
    intro s rest c h
    obtain ⟨ws, q, tl, g, tl2, hs, hws, hq, hg, hgq, ho, hcl⟩ := matchHere_meta_inv s _ rest c h
    refine ⟨_, _, FindStringSubmatch_of_match _ _ _ _ h, ?_, ?_, [], ws, q, tl, hs, hws, hq⟩
    · rw [ho, hcl, between_append]
      exact hg
    · rw [ho, hcl, between_append]
      exact hgq
  induction body with
  | nil =>
    cases h : matchHere metaRedirectRe [] ⟨[], []⟩ with
    | none => left; simp [FindStringSubmatch, h]
    | some r => right; exact key [] r.1 r.2 h
  | cons x t ih =>
    cases h : matchHere metaRedirectRe (x :: t) ⟨[], []⟩ with
    | some r => right; exact key (x :: t) r.1 r.2 h
    | none =>
      rw [FindStringSubmatch_skip _ _ _ h]
      rcases ih with h0 | ⟨whole, g, hm, hg, hgq, pre, ws, q, tl, hb, hws, hq⟩
      · left; exact h0
      · right
        exact ⟨whole, g, hm, hg, hgq, x :: pre, ws, q, tl, by simp [hb], hws, hq⟩

theorem meta_straddle (P Y : List Char) (hP : P ≠ [])
    (h : "<meta".toList <+: P ++ ("<meta".toList ++ Y)) : "<meta".toList <:+: P := by
  rcases P with _ | ⟨a, _ | ⟨b, _ | ⟨c, _ | ⟨d, _ | ⟨e, P⟩⟩⟩⟩⟩
  · exact absurd rfl hP
  · simp at h
  · simp at h
  · simp at h
  · simp at h
  · have h5 : "<meta".toList <+: [a, b, c, d, e] ++ (P ++ ("<meta".toList ++ Y)) := by
      simpa using h
    have h6 : "<meta".toList <+: [a, b, c, d, e] :=
      List.prefix_of_prefix_length_le h5 (List.prefix_append _ _) (by simp)
    exact h6.isInfix.trans ⟨[], P, by simp⟩

/-- The leftmost match in `P ++ tag ++ S`, where `P` holds no `<meta`, is the tag,
and its group 1 is the text after `url=`. -/
theorem FindStringSubmatch_metaTag (P S : GoString) (q1 q2 q3 q4 : Char) (d t : GoString)
    (hP : ¬ "<meta".toList <:+: P)
    (h1 : IsQuoteChar q1) (h2 : IsQuoteChar q2) (h3 : IsQuoteChar q3) (h4 : IsQuoteChar q4)
    (hd : d ≠ []) (hdd : ∀ x ∈ d, isDigit x = true)
    (ht : t ≠ []) (htq : ∀ x ∈ t, notQuote x = true) :
    FindStringSubmatch metaRedirectRe (P ++ metaTag q1 q2 q3 q4 d t ++ S) =
      [metaTag q1 q2 q3 q4 d t, t] := by
  induction P with
  | nil =>
    have hm := matchHere_metaTag q1 q2 q3 q4 d t S ⟨[], []⟩ h1 h2 h3 h4 hd hdd ht htq
    rw [List.nil_append, FindStringSubmatch_of_match _ _ _ _ hm, between_append, between_append]
  | cons x P ih =>
    have hno : matchHere metaRedirectRe (x :: P ++ metaTag q1 q2 q3 q4 d t ++ S) ⟨[], []⟩
        = none := by
      cases hm : matchHere metaRedirectRe (x :: P ++ metaTag q1 q2 q3 q4 d t ++ S) ⟨[], []⟩ with
      | none => rfl
      | some r =>
        exfalso
        have hpre := matchHere_meta_isPrefix _ _ _ hm
        rw [List.append_assoc, metaTag_append] at hpre
        exact hP (meta_straddle (x :: P) _ (by simp) hpre)
    have hP2 : ¬ "<meta".toList <:+: P := fun hi => hP (hi.trans (List.infix_cons (List.infix_refl _)))
    have hskip := FindStringSubmatch_skip metaRedirectRe x (P ++ metaTag q1 q2 q3 q4 d t ++ S)
      (by simpa using hno)
    have hcons : x :: P ++ metaTag q1 q2 q3 q4 d t ++ S
        = x :: (P ++ metaTag q1 q2 q3 q4 d t ++ S) := by simp
    rw [hcons, hskip]
    exact ih hP2

/-! ## The loop of `FollowRedirects` -/

theorem anyFetchFailed_append (w : World) (l1 l2 : List GoString) (i : Nat) :
    anyFetchFailed w i (l1 ++ l2) =
      (anyFetchFailed w i l1 || anyFetchFailed w (i + l1.length) l2) := by
  induction l1 generalizing i with
  | nil => simp [anyFetchFailed]
  | cons a l ih =>
    have h : i + 1 + l.length = i + (l.length + 1) := by omega
    simp [anyFetchFailed, ih, h, Bool.or_assoc]

theorem RedirectRun_noFail (r : Requester) (w : World) (steps : List (GoString × Response)) :
    ∀ i u v, RedirectRun r w i u steps v → anyFetchFailed w i (steps.map Prod.fst) = false := by
  induction steps with
  | nil => intro i u v _; rfl
  | cons s rest ih =>
    intro i u v h
    obtain ⟨hs, hw, t, _, hrest⟩ := h
    simp [anyFetchFailed, hs, hw, isError, ih _ _ _ hrest]

theorem followLoop_run (r : Requester) (w : World) (steps : List (GoString × Response)) :
    ∀ n i u v acc log, RedirectRun r w i u steps v →
      followLoop r w (steps.length + n) i u acc log =
        followLoop r w n (i + steps.length) v (acc ++ hopsOf r steps)
          (log ++ steps.map Prod.fst) := by
  induction steps with
  | nil =>
    intro n i u v acc log h
    have huv : u = v := h
    simp [hopsOf, huv]
  | cons s rest ih =>
    intro n i u v acc log h
    obtain ⟨hs, hw, t, ht, hrest⟩ := h
    have hlen : (s :: rest).length + n = (rest.length + n) + 1 := by simp; omega
    have hidx : i + (s :: rest).length = i + 1 + rest.length := by simp; omega
    rw [hlen, hidx]
    simp only [followLoop, hw, ht]
    rw [ih n (i + 1) t v _ _ hrest]
    simp [hopsOf, hs]

/-- The three ways the loop ends: the bound is reached, a response carries no
redirect signal, or a fetch fails. -/
theorem followLoop_cases (r : Requester) (w : World) :
    ∀ n i u acc log, ∃ steps v, RedirectRun r w i u steps v ∧
      ((steps.length = n ∧ followLoop r w n i u acc log =
          ⟨(acc ++ hopsOf r steps).reverse, none, log ++ steps.map Prod.fst⟩) ∨
       (steps.length < n ∧ ∃ resp, w (i + steps.length) v = .ok resp ∧
          nextTarget r resp = none ∧ followLoop r w n i u acc log =
          ⟨(acc ++ hopsOf r steps ++ [entryOf r v resp]).reverse, none,
            log ++ steps.map Prod.fst ++ [v]⟩) ∨
       (steps.length < n ∧ ∃ e, w (i + steps.length) v = .error e ∧
          followLoop r w n i u acc log =
          ⟨acc ++ hopsOf r steps, some e, log ++ steps.map Prod.fst ++ [v]⟩)) := by
  intro n
  induction n with
  | zero =>
    intro i u acc log
    exact ⟨[], u, rfl, Or.inl ⟨rfl, by simp [followLoop, hopsOf]⟩⟩
  | succ n ih =>
    intro i u acc log
    cases hw : w i u with
    | error e =>
      exact ⟨[], u, rfl, Or.inr (Or.inr ⟨by simp, e, by simpa using hw,
        by simp [followLoop, hw, hopsOf]⟩)⟩
    | ok resp =>
      cases ht : nextTarget r resp with
      | none =>
        exact ⟨[], u, rfl, Or.inr (Or.inl ⟨by simp, resp, by simpa using hw, ht,
          by simp [followLoop, hw, ht, hopsOf]⟩)⟩
      | some t =>
        obtain ⟨steps, v, hrun, hcase⟩ := ih (i + 1) t (acc ++ [entryOf r u resp]) (log ++ [u])
        have hstep : followLoop r w (n + 1) i u acc log =
            followLoop r w n (i + 1) t (acc ++ [entryOf r u resp]) (log ++ [u]) := by
          simp [followLoop, hw, ht]
        have hidx : i + ((u, resp) :: steps).length = i + 1 + steps.length := by simp; omega
        refine ⟨(u, resp) :: steps, v, ⟨rfl, hw, t, ht, hrun⟩, ?_⟩
        rw [hstep, hidx]
        rcases hcase with ⟨hl, hres⟩ | ⟨hl, resp2, hw2, ht2, hres⟩ | ⟨hl, e, hw2, hres⟩
        · exact Or.inl ⟨by simp [hl], by simpa [hopsOf] using hres⟩
        · exact Or.inr (Or.inl ⟨by simpa using hl, resp2, hw2, ht2, by simpa [hopsOf] using hres⟩)
        · exact Or.inr (Or.inr ⟨by simpa using hl, e, hw2, by simpa [hopsOf] using hres⟩)

theorem nextTarget_of_statusRedirect (r : Requester) (resp : Response)
    (h : StatusRedirect resp) : nextTarget r resp = some (headerGet resp.Header "Location") := by
  unfold StatusRedirect at h
  simp [nextTarget, h]

theorem nextTarget_ne_nil (r : Requester) (resp : Response) (t : GoString)
    (h : nextTarget r resp = some t) : t ≠ [] := by
  unfold nextTarget at h
  simp only at h
  split_ifs at h with h1 h2
  · have ht : headerGet resp.Header "Location" = t := by simpa using h
    rw [← ht]
    exact h1.2.2
  · rcases FindStringSubmatch_meta_sound (captureBody r resp) with h0 | ⟨whole, g, hm, hg, _⟩
    · rw [h0] at h
      simp at h
    · rw [hm] at h
      have ht : g = t := by simpa using h
      rw [← ht]
      exact hg

theorem entryOf_target_some (r : Requester) (u : GoString) (resp : Response) (t : GoString)
    (h : nextTarget r resp = some t) : (entryOf r u resp).TargetURL = t := by
  simp [entryOf, h]

theorem entryOf_target_none (r : Requester) (u : GoString) (resp : Response)
    (h : nextTarget r resp = none) : (entryOf r u resp).TargetURL = [] := by
  simp [entryOf, h]

theorem hopsOf_target_ne (r : Requester) (w : World) (steps : List (GoString × Response)) :
    ∀ i u v, RedirectRun r w i u steps v → ∀ h ∈ hopsOf r steps, h.TargetURL ≠ [] := by
  induction steps with
  | nil => intro i u v _ h hh; simp [hopsOf] at hh
  | cons s rest ih =>
    intro i u v hrun h hh
    obtain ⟨_, _, t, ht, hrest⟩ := hrun
    have hcons : hopsOf r (s :: rest) = entryOf r s.1 s.2 :: hopsOf r rest := rfl
    rw [hcons] at hh
    rcases List.mem_cons.1 hh with rfl | hmem
    · rw [entryOf_target_some r _ _ t ht]
      exact nextTarget_ne_nil r _ t ht
    · exact ih _ _ _ hrest h hmem

theorem hopsOf_urls (r : Requester) (steps : List (GoString × Response)) :
    (hopsOf r steps).map (fun h => h.URL) = steps.map Prod.fst := by
  simp [hopsOf, entryOf]

/-- The hops of a run are linked: each hop's target is the URL of the next one, the
first hop is the one of the URL the run starts with. -/
theorem hopsOf_chain (r : Requester) (w : World) (steps : List (GoString × Response)) :
    ∀ i u v (tail : List RedirectResponse), RedirectRun r w i u steps v →
      List.Chain' (fun a b => b.URL = a.TargetURL) tail → (∀ x ∈ tail.head?, x.URL = v) →
      List.Chain' (fun a b => b.URL = a.TargetURL) (hopsOf r steps ++ tail) ∧
      (∀ x ∈ (hopsOf r steps ++ tail).head?, x.URL = u) := by
  induction steps with
  | nil =>
    intro i u v tail hrun hc hh
    have huv : u = v := hrun
    simpa [hopsOf, huv] using ⟨hc, hh⟩
  | cons s rest ih =>
    intro i u v tail hrun hc hh
    obtain ⟨hs, _, t, ht, hrest⟩ := hrun
    obtain ⟨hc2, hh2⟩ := ih _ _ _ tail hrest hc hh
    have hcons : hopsOf r (s :: rest) ++ tail = entryOf r s.1 s.2 :: (hopsOf r rest ++ tail) := by
      simp [hopsOf]
    rw [hcons]
    refine ⟨List.chain'_cons'.2 ⟨?_, hc2⟩, ?_⟩
    · intro y hy
      rw [entryOf_target_some r _ _ t ht]
      exact hh2 y hy
    · intro x hx
      have hx2 : entryOf r s.1 s.2 = x := by simpa using hx
      rw [← hx2]
      exact hs

theorem chain_getElem {α : Type} (R : α → α → Prop) (l : List α) (hc : List.Chain' R l) :
    ∀ i a b, l[i]? = some a → l[i + 1]? = some b → R a b := by
  induction l with
  | nil => intro i a b ha; simp at ha
  | cons x l ih =>
    intro i a b ha hb
    obtain ⟨hhead, htail⟩ := List.chain'_cons'.1 hc
    cases i with
    | zero =>
      have hxa : x = a := by simpa using ha
      have hb2 : l[0]? = some b := by simpa using hb
      rw [← hxa]
      exact hhead b (by simpa [List.head?_eq_getElem?] using hb2)
    | succ i =>
      exact ih htail i a b (by simpa using ha) (by simpa using hb)

theorem FollowRedirects_cases (r : Requester) (w : World) (url : GoString)
    (hN : 1 ≤ r.MaxRedirects) :
    ∃ steps v, RedirectRun r w 0 url steps v ∧
      ((steps.length = r.MaxRedirects.toNat ∧ FollowRedirects r w url =
          ⟨(hopsOf r steps).reverse, none, steps.map Prod.fst⟩) ∨
       (steps.length < r.MaxRedirects.toNat ∧ ∃ resp, w steps.length v = .ok resp ∧
          nextTarget r resp = none ∧ FollowRedirects r w url =
          ⟨(hopsOf r steps ++ [entryOf r v resp]).reverse, none, steps.map Prod.fst ++ [v]⟩) ∨
       (steps.length < r.MaxRedirects.toNat ∧ ∃ e, w steps.length v = .error e ∧
          FollowRedirects r w url = ⟨hopsOf r steps, some e, steps.map Prod.fst ++ [v]⟩)) := by
  have hif : ¬ r.MaxRedirects < 1 := not_lt.2 hN
  have h := followLoop_cases r w r.MaxRedirects.toNat 0 url [] []
  simp only [Nat.zero_add, List.nil_append] at h
  unfold FollowRedirects
  rw [if_neg hif]
  exact h

theorem FollowRedirects_bound (r : Requester) (w : World) (url : GoString)
    (steps : List (GoString × Response)) (v : GoString) (hN : 1 ≤ r.MaxRedirects)
    (hrun : RedirectRun r w 0 url steps v) (hlen : steps.length = r.MaxRedirects.toNat) :
    FollowRedirects r w url = ⟨(hopsOf r steps).reverse, none, steps.map Prod.fst⟩ := by
  have hif : ¬ r.MaxRedirects < 1 := not_lt.2 hN
  have h := followLoop_run r w steps 0 0 url v [] [] hrun
  simp only [FollowRedirects, hif, if_false, ← hlen]
  simpa [followLoop] using h

theorem FollowRedirects_terminal (r : Requester) (w : World) (url : GoString)
    (steps : List (GoString × Response)) (v : GoString) (resp : Response)
    (hrun : RedirectRun r w 0 url steps v) (hlen : steps.length < r.MaxRedirects.toNat)
    (hw : w steps.length v = .ok resp) (ht : nextTarget r resp = none) :
    FollowRedirects r w url =
      ⟨(hopsOf r steps ++ [entryOf r v resp]).reverse, none, steps.map Prod.fst ++ [v]⟩ := by
  have hif : ¬ r.MaxRedirects < 1 := by omega
  obtain ⟨m, hm⟩ : ∃ m, r.MaxRedirects.toNat = steps.length + (m + 1) :=
    ⟨r.MaxRedirects.toNat - steps.length - 1, by omega⟩
  have h := followLoop_run r w steps (m + 1) 0 url v [] [] hrun
  simp only [FollowRedirects, hif, if_false, hm]
  rw [h]
  simp [followLoop, hw, ht]

theorem FollowRedirects_error (r : Requester) (w : World) (url : GoString)
    (steps : List (GoString × Response)) (v : GoString) (e : String)
    (hrun : RedirectRun r w 0 url steps v) (hlen : steps.length < r.MaxRedirects.toNat)
    (hw : w steps.length v = .error e) :
    FollowRedirects r w url = ⟨hopsOf r steps, some e, steps.map Prod.fst ++ [v]⟩ := by
  have hif : ¬ r.MaxRedirects < 1 := by omega
  obtain ⟨m, hm⟩ : ∃ m, r.MaxRedirects.toNat = steps.length + (m + 1) :=
    ⟨r.MaxRedirects.toNat - steps.length - 1, by omega⟩
  have h := followLoop_run r w steps (m + 1) 0 url v [] [] hrun
  simp only [FollowRedirects, hif, if_false, hm]
  rw [h]
  simp [followLoop, hw]

theorem reversed_chain_props (F : List RedirectResponse) (url : GoString) (hne : F ≠ [])
    (hc : List.Chain' (fun a b => b.URL = a.TargetURL) F) (hh : ∀ x ∈ F.head?, x.URL = url) :
    F.reverse ≠ [] ∧ (∀ h ∈ F.reverse.getLast?, h.URL = url) ∧
    ∀ i a b, F.reverse[i]? = some a → F.reverse[i + 1]? = some b → a.URL = b.TargetURL := by
  refine ⟨by simpa using hne, ?_, ?_⟩
  · rw [List.getLast?_reverse]
    exact hh
  · have hrev : List.Chain' (fun a b : RedirectResponse => a.URL = b.TargetURL) F.reverse :=
      List.chain'_reverse.2 hc
    exact chain_getElem _ _ hrev

/-- C1: with `MaxRedirects ≥ 1` and no failed fetch, the returned chain is the
recorded hops in reverse fetch order: it is non-empty, its hop URLs are the fetched
URLs in reverse, the hop at the last index has the start URL, and the URL of every
hop is the `TargetURL` of the hop at the next index. -/
theorem followRedirects_reverse_fetch_order (r : Requester) (w : World) (url : GoString)
    (hN : 1 ≤ r.MaxRedirects)
    (hok : anyFetchFailed w 0 (FollowRedirects r w url).fetched = false) :
    (FollowRedirects r w url).responses ≠ [] ∧
    (FollowRedirects r w url).responses.map (fun h => h.URL) =
      (FollowRedirects r w url).fetched.reverse ∧
    (∀ h ∈ (FollowRedirects r w url).responses.getLast?, h.URL = url) ∧
    (∀ i a b, (FollowRedirects r w url).responses[i]? = some a →
      (FollowRedirects r w url).responses[i + 1]? = some b → a.URL = b.TargetURL) := by
  obtain ⟨steps, v, hrun, hcase⟩ := FollowRedirects_cases r w url hN
  rcases hcase with ⟨hl, hres⟩ | ⟨hl, resp, hw, ht, hres⟩ | ⟨hl, e, hw, hres⟩
  · have hne : hopsOf r steps ≠ [] := by
      intro h0
      have hlen0 : steps.length = 0 := by simpa [hopsOf] using congrArg List.length h0
      omega
    obtain ⟨hc, hh⟩ := hopsOf_chain r w steps 0 url v [] hrun List.chain'_nil (by simp)
    rw [List.append_nil] at hc hh
    obtain ⟨p1, p2, p3⟩ := reversed_chain_props _ url hne hc hh
    rw [hres]
    refine ⟨p1, ?_, p2, p3⟩
    simp only [List.map_reverse, hopsOf_urls]
  · obtain ⟨hc, hh⟩ := hopsOf_chain r w steps 0 url v [entryOf r v resp] hrun
      (List.chain'_singleton _) (by simp [entryOf])
    obtain ⟨p1, p2, p3⟩ := reversed_chain_props _ url (by simp) hc hh
    rw [hres]
    refine ⟨p1, ?_, p2, p3⟩
    simp only [List.map_reverse, List.map_append, hopsOf_urls]
    simp [entryOf]
  · exfalso
    rw [hres] at hok
    simp only [anyFetchFailed_append, anyFetchFailed, RedirectRun_noFail r w steps 0 url v hrun,
      Nat.zero_add, List.length_map] at hok
    rw [hw] at hok
    simp [isError] at hok

theorem followRedirects_reverse_fetch_order_witness :
    (1 : Int) ≤ (requester 2).MaxRedirects ∧
    anyFetchFailed worldAB 0 (FollowRedirects (requester 2) worldAB urlA).fetched = false ∧
    (FollowRedirects (requester 2) worldAB urlA).responses =
      [⟨urlB, [], [("Content-Type".toList, "text/html".toList)], "<html></html>".toList⟩,
       ⟨urlA, urlB, [("Location".toList, urlB)], []⟩] ∧
    ((FollowRedirects (requester 2) worldAB urlA).responses ≠ [] ∧
    (FollowRedirects (requester 2) worldAB urlA).responses.map (fun h => h.URL) =
      (FollowRedirects (requester 2) worldAB urlA).fetched.reverse ∧
    (∀ h ∈ (FollowRedirects (requester 2) worldAB urlA).responses.getLast?, h.URL = urlA) ∧
    (∀ i a b, (FollowRedirects (requester 2) worldAB urlA).responses[i]? = some a →
      (FollowRedirects (requester 2) worldAB urlA).responses[i + 1]? = some b →
      a.URL = b.TargetURL)) :=
  ⟨by decide, by decide, by decide,
    followRedirects_reverse_fetch_order (requester 2) worldAB urlA (by decide) (by decide)⟩

theorem reverse_getElem_pos_mem {α : Type} (x : α) (l : List α) (i : Nat) (a : α)
    (hi : 0 < i) (h : (x :: l)[i]? = some a) : a ∈ l := by
  cases i with
  | zero => omega
  | succ i => exact List.getElem?_mem (by simpa using h)

/-- C2: with `MaxRedirects = N ≥ 1`, after a run `steps` of successful fetches that
each carry a redirect signal (cycles allowed): if the next response, the `k`-th
with `k = steps.length + 1 ≤ N`, carries no redirect signal, exactly `k` fetches are
made and `k` hops returned, the hop at index 0 having an empty `TargetURL`; if the
run has length `N`, exactly `N` fetches are made and `N` hops returned, the hop at
index 0 having a non-empty `TargetURL`.  In both cases every hop at an index `> 0`
has a non-empty `TargetURL`. -/
theorem followRedirects_hop_count (r : Requester) (w : World) (url : GoString)
    (steps : List (GoString × Response)) (v : GoString) (hN : 1 ≤ r.MaxRedirects)
    (hrun : RedirectRun r w 0 url steps v) :
    (∀ resp, steps.length < r.MaxRedirects.toNat → w steps.length v = .ok resp →
      nextTarget r resp = none →
      (FollowRedirects r w url).err = none ∧
      (FollowRedirects r w url).fetched.length = steps.length + 1 ∧
      (FollowRedirects r w url).responses.length = steps.length + 1 ∧
      (∃ h, (FollowRedirects r w url).responses[0]? = some h ∧ h.TargetURL = []) ∧
      (∀ i h, 0 < i → (FollowRedirects r w url).responses[i]? = some h → h.TargetURL ≠ [])) ∧
    (steps.length = r.MaxRedirects.toNat →
      (FollowRedirects r w url).err = none ∧
      (FollowRedirects r w url).fetched.length = r.MaxRedirects.toNat ∧
      (FollowRedirects r w url).responses.length = r.MaxRedirects.toNat ∧
      (∃ h, (FollowRedirects r w url).responses[0]? = some h ∧ h.TargetURL ≠ []) ∧
      (∀ i h, 0 < i → (FollowRedirects r w url).responses[i]? = some h → h.TargetURL ≠ [])) := by
  constructor
  · intro resp hlen hw ht
    rw [FollowRedirects_terminal r w url steps v resp hrun hlen hw ht]
    have hrev : (hopsOf r steps ++ [entryOf r v resp]).reverse =
        entryOf r v resp :: (hopsOf r steps).reverse := by simp
    simp only [hrev]
    refine ⟨by trivial, by simp, by simp [hopsOf], ⟨entryOf r v resp, by simp,
      entryOf_target_none r v resp ht⟩, ?_⟩
    intro i h hi hget
    have hmem := reverse_getElem_pos_mem _ _ i h hi hget
    exact hopsOf_target_ne r w steps 0 url v hrun h (List.mem_reverse.1 hmem)
  · intro hlen
    rw [FollowRedirects_bound r w url steps v hN hrun hlen]
    have hall : ∀ h ∈ (hopsOf r steps).reverse, h.TargetURL ≠ [] := fun h hm =>
      hopsOf_target_ne r w steps 0 url v hrun h (List.mem_reverse.1 hm)
    have hlen2 : (hopsOf r steps).reverse.length = r.MaxRedirects.toNat := by
      simp [hopsOf, hlen]
    have hpos : 0 < (hopsOf r steps).reverse.length := by omega
    refine ⟨rfl, by simp [hlen], hlen2, ?_, ?_⟩
    · refine ⟨(hopsOf r steps).reverse[0], List.getElem?_eq_getElem hpos, ?_⟩
      exact hall _ (List.getElem_mem _)
    · intro i h _ hget
      exact hall h (List.getElem?_mem hget)

theorem followRedirects_hop_count_witness :
    (1 : Int) ≤ (requester 1).MaxRedirects ∧
    RedirectRun (requester 1) worldAB 0 urlA [(urlA, redirectTo 301 urlB)] urlB ∧
    (FollowRedirects (requester 1) worldAB urlA).responses =
      [⟨urlA, urlB, [("Location".toList, urlB)], []⟩] ∧
    ((FollowRedirects (requester 1) worldAB urlA).err = none ∧
      (FollowRedirects (requester 1) worldAB urlA).fetched.length = 1 ∧
      (FollowRedirects (requester 1) worldAB urlA).responses.length = 1 ∧
      (∃ h, (FollowRedirects (requester 1) worldAB urlA).responses[0]? = some h ∧
        h.TargetURL ≠ []) ∧
      (∀ i h, 0 < i → (FollowRedirects (requester 1) worldAB urlA).responses[i]? = some h →
        h.TargetURL ≠ [])) :=
  ⟨by decide, ⟨rfl, rfl, urlB, rfl, rfl⟩, by decide,
    (followRedirects_hop_count (requester 1) worldAB urlA [(urlA, redirectTo 301 urlB)] urlB
      (by decide) ⟨rfl, rfl, urlB, rfl, rfl⟩).2 rfl⟩

/-- C3: when the first `j = steps.length < N` fetches succeed and each carries a
redirect signal, and the next fetch fails with error `e`, `FollowRedirects` makes
exactly those `j + 1` fetches, the failed one last, and returns `e` unchanged
together with exactly the `j` hops recorded for the successful fetches. -/
theorem followRedirects_fetch_error (r : Requester) (w : World) (url : GoString)
    (steps : List (GoString × Response)) (v : GoString) (e : String)
    (hrun : RedirectRun r w 0 url steps v) (hj : steps.length < r.MaxRedirects.toNat)
    (hfail : w steps.length v = .error e) :
    (FollowRedirects r w url).err = some e ∧
    (FollowRedirects r w url).fetched = steps.map Prod.fst ++ [v] ∧
    (FollowRedirects r w url).fetched.length = steps.length + 1 ∧
    (FollowRedirects r w url).responses.length = steps.length ∧
    (FollowRedirects r w url).responses.Perm (hopsOf r steps) := by
  rw [FollowRedirects_error r w url steps v e hrun hj hfail]
  exact ⟨rfl, rfl, by simp, by simp [hopsOf], List.Perm.refl _⟩

theorem followRedirects_fetch_error_witness :
    RedirectRun (requester 3) worldSecondFails 0 urlA [(urlA, redirectTo 301 urlB)] urlB ∧
    [(urlA, redirectTo 301 urlB)].length < (requester 3).MaxRedirects.toNat ∧
    worldSecondFails 1 urlB = .error "connection reset" ∧
    ((FollowRedirects (requester 3) worldSecondFails urlA).err = some "connection reset" ∧
    (FollowRedirects (requester 3) worldSecondFails urlA).fetched = [urlA] ++ [urlB] ∧
    (FollowRedirects (requester 3) worldSecondFails urlA).fetched.length = 1 + 1 ∧
    (FollowRedirects (requester 3) worldSecondFails urlA).responses.length = 1 ∧
    (FollowRedirects (requester 3) worldSecondFails urlA).responses.Perm
      (hopsOf (requester 3) [(urlA, redirectTo 301 urlB)])) :=
  ⟨⟨rfl, rfl, urlB, rfl, rfl⟩, by decide, rfl,
    followRedirects_fetch_error (requester 3) worldSecondFails urlA
      [(urlA, redirectTo 301 urlB)] urlB "connection reset" ⟨rfl, rfl, urlB, rfl, rfl⟩
      (by decide) rfl⟩

theorem RedirectRun_snoc (r : Requester) (w : World) (steps : List (GoString × Response)) :
    ∀ i u v resp t, RedirectRun r w i u steps v → w (i + steps.length) v = .ok resp →
      nextTarget r resp = some t → RedirectRun r w i u (steps ++ [(v, resp)]) t := by
  induction steps with
  | nil =>
    intro i u v resp t hrun hw ht
    have huv : u = v := hrun
    subst huv
    exact ⟨rfl, by simpa using hw, t, ht, rfl⟩
  | cons s rest ih =>
    intro i u v resp t hrun hw ht
    obtain ⟨hs, hws, t2, ht2, hrest⟩ := hrun
    have hidx : i + (s :: rest).length = i + 1 + rest.length := by simp; omega
    rw [hidx] at hw
    exact ⟨hs, hws, t2, ht2, ih _ _ _ _ _ hrest hw ht⟩

theorem followLoop_succ_error (r : Requester) (w : World) (n i : Nat) (u : GoString)
    (acc : List RedirectResponse) (log : List GoString) (e : String)
    (hw : w i u = .error e) :
    followLoop r w (n + 1) i u acc log = ⟨acc, some e, log ++ [u]⟩ := by
  simp [followLoop, hw]

theorem followLoop_succ_none (r : Requester) (w : World) (n i : Nat) (u : GoString)
    (acc : List RedirectResponse) (log : List GoString) (resp : Response)
    (hw : w i u = .ok resp) (ht : nextTarget r resp = none) :
    followLoop r w (n + 1) i u acc log =
      ⟨(acc ++ [entryOf r u resp]).reverse, none, log ++ [u]⟩ := by
  simp [followLoop, hw, ht]

theorem followLoop_succ_some (r : Requester) (w : World) (n i : Nat) (u : GoString)
    (acc : List RedirectResponse) (log : List GoString) (resp : Response) (t : GoString)
    (hw : w i u = .ok resp) (ht : nextTarget r resp = some t) :
    followLoop r w (n + 1) i u acc log =
      followLoop r w n (i + 1) t (acc ++ [entryOf r u resp]) (log ++ [u]) := by
  simp [followLoop, hw, ht]

theorem followLoop_fetched (r : Requester) (w : World) :
    ∀ n i u acc log, log <+: (followLoop r w n i u acc log).fetched := by
  intro n
  induction n with
  | zero => intro i u acc log; simp [followLoop]
  | succ n ih =>
    intro i u acc log
    cases hw : w i u with
    | error e => rw [followLoop_succ_error r w n i u acc log e hw]; simp
    | ok resp =>
      cases ht : nextTarget r resp with
      | none => rw [followLoop_succ_none r w n i u acc log resp hw ht]; simp
      | some t =>
        rw [followLoop_succ_some r w n i u acc log resp t hw ht]
        exact (List.prefix_append log [u]).trans (ih _ _ _ _)

theorem followLoop_fetched_next (r : Requester) (w : World) (n i : Nat) (u : GoString)
    (acc : List RedirectResponse) (log : List GoString) :
    (followLoop r w (n + 1) i u acc log).fetched[log.length]? = some u := by
  have hpre : log ++ [u] <+: (followLoop r w (n + 1) i u acc log).fetched := by
    cases hw : w i u with
    | error e => rw [followLoop_succ_error r w n i u acc log e hw]
    | ok resp =>
      cases ht : nextTarget r resp with
      | none => rw [followLoop_succ_none r w n i u acc log resp hw ht]
      | some t =>
        rw [followLoop_succ_some r w n i u acc log resp t hw ht]
        exact followLoop_fetched r w n _ _ _ _
  obtain ⟨rest, hrest⟩ := hpre
  rw [← hrest, List.append_assoc, List.getElem?_append_right (le_refl _)]
  simp

theorem followLoop_acc_mem (r : Requester) (w : World) :
    ∀ n i u acc log, ∀ h ∈ acc, h ∈ (followLoop r w n i u acc log).responses := by
  intro n
  induction n with
  | zero => intro i u acc log h hh; simpa [followLoop] using hh
  | succ n ih =>
    intro i u acc log h hh
    cases hw : w i u with
    | error e => rw [followLoop_succ_error r w n i u acc log e hw]; exact hh
    | ok resp =>
      cases ht : nextTarget r resp with
      | none => rw [followLoop_succ_none r w n i u acc log resp hw ht]; simp [hh]
      | some t =>
        rw [followLoop_succ_some r w n i u acc log resp t hw ht]
        exact ih _ _ _ _ h (by simp [hh])

/-- After a run of `steps.length < N` redirecting fetches, the next successful fetch
is made to the URL the run ends in and its hop is part of what is returned. -/
theorem FollowRedirects_records (r : Requester) (w : World) (url : GoString)
    (steps : List (GoString × Response)) (v : GoString) (resp : Response)
    (hrun : RedirectRun r w 0 url steps v) (hlen : steps.length < r.MaxRedirects.toNat)
    (hw : w steps.length v = .ok resp) :
    entryOf r v resp ∈ (FollowRedirects r w url).responses ∧
    (FollowRedirects r w url).fetched[steps.length]? = some v := by
  have hif : ¬ r.MaxRedirects < 1 := by omega
  obtain ⟨m, hm⟩ : ∃ m, r.MaxRedirects.toNat = steps.length + (m + 1) :=
    ⟨r.MaxRedirects.toNat - steps.length - 1, by omega⟩
  have h := followLoop_run r w steps (m + 1) 0 url v [] [] hrun
  simp only [FollowRedirects, hif, if_false, hm]
  rw [h]
  have hw2 : w (0 + steps.length) v = .ok resp := by simpa using hw
  constructor
  · cases ht : nextTarget r resp with
    | none => rw [followLoop_succ_none r w m _ v _ _ resp hw2 ht]; simp
    | some t =>
      rw [followLoop_succ_some r w m _ v _ _ resp t hw2 ht]
      exact followLoop_acc_mem r w _ _ _ _ _ _ (by simp)
  · have hn := followLoop_fetched_next r w m (0 + steps.length) v ([] ++ hopsOf r steps)
      ([] ++ steps.map Prod.fst)
    simpa using hn

/-- C4 (the code at the failing input): `A` redirects to `B` and `B` to `C`.  When
the third fetch fails, the two hops come back in fetch order, the hop of the start
URL `A` at index 0 and the most recently fetched hop `B` at the last index; when
instead the bound 2 ends the trace, the same two hops come back reversed. -/
theorem followRedirects_error_chain_in_fetch_order :
    FollowRedirects (requester 3) worldThirdFails urlA =
      ⟨[⟨urlA, urlB, [("Location".toList, urlB)], []⟩,
        ⟨urlB, urlC, [("Location".toList, urlC)], []⟩],
       some "connection reset", [urlA, urlB, urlC]⟩ ∧
    FollowRedirects (requester 2) worldABC urlA =
      ⟨[⟨urlB, urlC, [("Location".toList, urlC)], []⟩,
        ⟨urlA, urlB, [("Location".toList, urlB)], []⟩],
       none, [urlA, urlB]⟩ := by
  constructor <;> decide

/-- C5: a fetched response whose status code is in `[300, 400)` with a non-empty
`Location` header `L`, whose content type is `text/html` and whose captured body
also matches the meta-refresh pattern with a target `T`, is recorded with
`TargetURL = L`, and the next fetch, if the bound allows one, is made to `L`. -/
theorem status_redirect_has_priority (r : Requester) (w : World) (url : GoString)
    (steps : List (GoString × Response)) (v : GoString) (resp : Response)
    (whole T : GoString)
    (hrun : RedirectRun r w 0 url steps v) (hlen : steps.length < r.MaxRedirects.toNat)
    (hw : w steps.length v = .ok resp) (hs : StatusRedirect resp)
    (_hct : hasPrefix (headerGet resp.Header "Content-Type") "text/html".toList = true)
    (_hmeta : FindStringSubmatch metaRedirectRe (captureBody r resp) = [whole, T]) :
    (entryOf r v resp).TargetURL = headerGet resp.Header "Location" ∧
    entryOf r v resp ∈ (FollowRedirects r w url).responses ∧
    (FollowRedirects r w url).fetched[steps.length]? = some v ∧
    (steps.length + 1 < r.MaxRedirects.toNat →
      (FollowRedirects r w url).fetched[steps.length + 1]? =
        some (headerGet resp.Header "Location")) := by
  have ht := nextTarget_of_statusRedirect r resp hs
  obtain ⟨hmem, hfetch⟩ := FollowRedirects_records r w url steps v resp hrun hlen hw
  refine ⟨entryOf_target_some r v resp _ ht, hmem, hfetch, ?_⟩
  intro hlen2
  have hrun2 := RedirectRun_snoc r w steps 0 url v resp _ hrun (by simpa using hw) ht
  have hlen3 : (steps ++ [(v, resp)]).length < r.MaxRedirects.toNat := by simpa using hlen2
  have hif : ¬ r.MaxRedirects < 1 := by omega
  obtain ⟨m, hm⟩ : ∃ m, r.MaxRedirects.toNat = (steps ++ [(v, resp)]).length + (m + 1) :=
    ⟨r.MaxRedirects.toNat - (steps ++ [(v, resp)]).length - 1, by omega⟩
  have h := followLoop_run r w _ (m + 1) 0 url _ [] [] hrun2
  simp only [FollowRedirects, hif, if_false, hm]
  rw [h]
  have hn := followLoop_fetched_next r w m (0 + (steps ++ [(v, resp)]).length)
    (headerGet resp.Header "Location") ([] ++ hopsOf r (steps ++ [(v, resp)]))
    ([] ++ (steps ++ [(v, resp)]).map Prod.fst)
  simpa using hn

theorem status_redirect_has_priority_witness :
    RedirectRun (requester 2) worldBoth 0 urlA [] urlA ∧
    ([] : List (GoString × Response)).length < (requester 2).MaxRedirects.toNat ∧
    worldBoth 0 urlA = .ok bothSignals ∧ StatusRedirect bothSignals ∧
    hasPrefix (headerGet bothSignals.Header "Content-Type") "text/html".toList = true ∧
    FindStringSubmatch metaRedirectRe (captureBody (requester 2) bothSignals) =
      ["<meta http-equiv=\"refresh\" content=\"0;url=https://c.example/\">".toList, urlC] ∧
    ((entryOf (requester 2) urlA bothSignals).TargetURL = urlB ∧
    entryOf (requester 2) urlA bothSignals ∈ (FollowRedirects (requester 2) worldBoth urlA).responses ∧
    (FollowRedirects (requester 2) worldBoth urlA).fetched[0]? = some urlA ∧
    (0 + 1 < (requester 2).MaxRedirects.toNat →
      (FollowRedirects (requester 2) worldBoth urlA).fetched[0 + 1]? = some urlB)) :=
  ⟨rfl, by decide, rfl, ⟨by decide, by decide, by decide⟩, by decide, by decide,
    status_redirect_has_priority (requester 2) worldBoth urlA [] urlA bothSignals
      "<meta http-equiv=\"refresh\" content=\"0;url=https://c.example/\">".toList urlC
      rfl (by decide) rfl ⟨by decide, by decide, by decide⟩ (by decide) (by decide)⟩

theorem isDigit_of (x : Char) (h : '0' ≤ x ∧ x ≤ '9') : isDigit x = true := by
  simp [isDigit, h.1, h.2]

theorem notQuote_of (x : Char) (h : x ≠ '"' ∧ x ≠ '\'') : notQuote x = true := by
  simp [notQuote, isQuote, h.1, h.2]

theorem nextTarget_of_meta (r : Requester) (resp : Response) (whole t : GoString)
    (hns : ¬ StatusRedirect resp)
    (hct : hasPrefix (headerGet resp.Header "Content-Type") "text/html".toList = true)
    (hne : captureBody r resp ≠ [])
    (hm : FindStringSubmatch metaRedirectRe (captureBody r resp) = [whole, t]) :
    nextTarget r resp = some t := by
  have hlen : 0 < (captureBody r resp).length := List.length_pos.2 hne
  unfold StatusRedirect at hns
  simp only [nextTarget, hns, hct, hlen, hm, if_false, and_self, if_true, gt_iff_lt]

/-- C6: in a body `P ++ <meta http-equiv=Q1refreshQ2 content=Q3D;url=TQ4> ++ S`, with
quotes `Q1..Q4`, a non-empty digit string `D`, a non-empty quote-free `T` and no
`<meta` in `P`, the first match of `metaRedirectRe` is the tag and its group 1 is
`T`; hence the hop of a response that is no status redirect, has content type
`text/html` and that captured body, records `TargetURL = T`. -/
theorem meta_refresh_extracts_target (P S : GoString) (q1 q2 q3 q4 : Char) (d t : GoString)
    (hP : ¬ "<meta".toList <:+: P)
    (h1 : IsQuoteChar q1) (h2 : IsQuoteChar q2) (h3 : IsQuoteChar q3) (h4 : IsQuoteChar q4)
    (hd : d ≠ []) (hdd : ∀ x ∈ d, '0' ≤ x ∧ x ≤ '9')
    (ht : t ≠ []) (htq : ∀ x ∈ t, x ≠ '"' ∧ x ≠ '\'') :
    FindStringSubmatch metaRedirectRe (P ++ metaTag q1 q2 q3 q4 d t ++ S) =
      [metaTag q1 q2 q3 q4 d t, t] ∧
    ∀ (r : Requester) (u : GoString) (resp : Response), ¬ StatusRedirect resp →
      hasPrefix (headerGet resp.Header "Content-Type") "text/html".toList = true →
      captureBody r resp = P ++ metaTag q1 q2 q3 q4 d t ++ S →
      nextTarget r resp = some t ∧ (entryOf r u resp).TargetURL = t := by
  have hfind := FindStringSubmatch_metaTag P S q1 q2 q3 q4 d t hP h1 h2 h3 h4 hd
    (fun x hx => isDigit_of x (hdd x hx)) ht (fun x hx => notQuote_of x (htq x hx))
  refine ⟨hfind, ?_⟩
  intro r u resp hns hct hbody
  have hne : captureBody r resp ≠ [] := by
    rw [hbody]
    simp [metaTag]
  have hnext := nextTarget_of_meta r resp _ t hns hct hne (by rw [hbody]; exact hfind)
  exact ⟨hnext, entryOf_target_some r u resp t hnext⟩

theorem meta_refresh_extracts_target_witness :
    (¬ "<meta".toList <:+: "<html>".toList) ∧
    "<html>".toList ++ metaTag '"' '"' '"' '"' "0".toList urlB ++ "</html>".toList = metaPage ∧
    ¬ StatusRedirect (htmlPage metaPage) ∧
    (FindStringSubmatch metaRedirectRe
        ("<html>".toList ++ metaTag '"' '"' '"' '"' "0".toList urlB ++ "</html>".toList) =
      [metaTag '"' '"' '"' '"' "0".toList urlB, urlB] ∧
    (nextTarget (requester 2) (htmlPage metaPage) = some urlB ∧
      (entryOf (requester 2) urlA (htmlPage metaPage)).TargetURL = urlB)) :=
  have h := meta_refresh_extracts_target "<html>".toList "</html>".toList '"' '"' '"' '"'
    "0".toList urlB (by decide) (Or.inl rfl) (Or.inl rfl) (Or.inl rfl) (Or.inl rfl)
    (by decide) (by decide) (by decide) (by decide)
  ⟨by decide, by decide, fun hs => absurd hs.1 (by decide),
    h.1, h.2 (requester 2) urlA (htmlPage metaPage) (fun hs => absurd hs.1 (by decide))
      (by decide) (by decide)⟩

theorem readAllLimited_isPrefix (b : BodyStream) (n : Int) (bytes : GoString)
    (h : readAllLimited b n = some bytes) : bytes = b.data.take n.toNat := by
  unfold readAllLimited at h
  cases hf : b.failAt with
  | none =>
    rw [hf] at h
    exact (Option.some.inj h).symm
  | some e =>
    rw [hf] at h
    simp only at h
    split_ifs at h
    exact (Option.some.inj h).symm

theorem captureBody_cases (r : Requester) (resp : Response) :
    captureBody r resp = [] ∨ captureBody r resp = resp.Body.data.take r.MaxBodySize.toNat := by
  unfold captureBody
  simp only
  split_ifs
  · cases h : readAllLimited resp.Body r.MaxBodySize with
    | none => left; rfl
    | some bytes => right; exact readAllLimited_isPrefix _ _ _ h
  · left; rfl

theorem captureBody_bound (r : Requester) (resp : Response) (hpos : 0 < r.MaxBodySize) :
    ((captureBody r resp).length : Int) ≤ r.MaxBodySize ∧
    captureBody r resp <+: resp.Body.data := by
  rcases captureBody_cases r resp with h | h
  · rw [h]
    exact ⟨by simpa using hpos.le, List.nil_prefix⟩
  · rw [h]
    refine ⟨?_, List.take_prefix _ _⟩
    have hle : (resp.Body.data.take r.MaxBodySize.toNat).length ≤ r.MaxBodySize.toNat := by
      simp
    have hto : (r.MaxBodySize.toNat : Int) = r.MaxBodySize := Int.toNat_of_nonneg hpos.le
    omega

theorem hopsOf_mem (r : Requester) (w : World) (steps : List (GoString × Response)) :
    ∀ i u v, RedirectRun r w i u steps v → ∀ h ∈ hopsOf r steps,
      ∃ j x resp, w j x = .ok resp ∧ h = entryOf r x resp := by
  induction steps with
  | nil => intro i u v _ h hh; simp [hopsOf] at hh
  | cons s rest ih =>
    intro i u v hrun h hh
    obtain ⟨hs, hw, t, _, hrest⟩ := hrun
    have hcons : hopsOf r (s :: rest) = entryOf r s.1 s.2 :: hopsOf r rest := rfl
    rw [hcons] at hh
    rcases List.mem_cons.1 hh with rfl | hmem
    · exact ⟨i, u, s.2, hw, by rw [hs]⟩
    · exact ih _ _ _ hrest h hmem

/-- Every hop returned by `FollowRedirects` is the entry of a response that one of
its fetches received. -/
theorem FollowRedirects_hop_origin (r : Requester) (w : World) (url : GoString) :
    ∀ h ∈ (FollowRedirects r w url).responses,
      ∃ j x resp, w j x = .ok resp ∧ h = entryOf r x resp := by
  intro h hh
  by_cases hN : 1 ≤ r.MaxRedirects
  · obtain ⟨steps, v, hrun, hcase⟩ := FollowRedirects_cases r w url hN
    rcases hcase with ⟨_, hres⟩ | ⟨_, resp, hw, _, hres⟩ | ⟨_, e, _, hres⟩
    · rw [hres] at hh
      exact hopsOf_mem r w steps 0 url v hrun h (List.mem_reverse.1 hh)
    · rw [hres] at hh
      rcases List.mem_append.1 (List.mem_reverse.1 hh) with hm | hm
      · exact hopsOf_mem r w steps 0 url v hrun h hm
      · exact ⟨_, v, resp, hw, by simpa using hm⟩
    · rw [hres] at hh
      exact hopsOf_mem r w steps 0 url v hrun h hh
  · have hlt : r.MaxRedirects < 1 := not_le.1 hN
    simp [FollowRedirects, hlt] at hh

theorem captureBody_readable (r : Requester) (resp : Response)
    (hct : hasPrefix (headerGet resp.Header "Content-Type") "text/plain".toList = true ∨
      hasPrefix (headerGet resp.Header "Content-Type") "text/html".toList = true)
    (hread : resp.Body.failAt = none) :
    captureBody r resp = resp.Body.data.take r.MaxBodySize.toNat := by
  have hc : (hasPrefix (headerGet resp.Header "Content-Type") "text/plain".toList ||
      hasPrefix (headerGet resp.Header "Content-Type") "text/html".toList) = true := by
    rcases hct with h | h <;> rw [h]
    · rfl
    · exact Bool.or_true _
  have hr : readAllLimited resp.Body r.MaxBodySize =
      some (resp.Body.data.take r.MaxBodySize.toNat) := by
    simp only [readAllLimited, hread]
  simp only [captureBody, hc, hr, if_true]

/-- With `MaxRedirects ≥ 1`, a trace none of whose fetches failed returns no error. -/
theorem FollowRedirects_err_none (r : Requester) (w : World) (url : GoString)
    (hN : 1 ≤ r.MaxRedirects)
    (hok : anyFetchFailed w 0 (FollowRedirects r w url).fetched = false) :
    (FollowRedirects r w url).err = none := by
  obtain ⟨steps, v, hrun, hcase⟩ := FollowRedirects_cases r w url hN
  rcases hcase with ⟨_, hres⟩ | ⟨_, resp, _, _, hres⟩ | ⟨_, e, hw, hres⟩
  · rw [hres]
  · rw [hres]
  · exfalso
    rw [hres] at hok
    simp only [anyFetchFailed_append, anyFetchFailed, RedirectRun_noFail r w steps 0 url v hrun,
      Nat.zero_add, List.length_map] at hok
    rw [hw] at hok
    simp [isError] at hok

/-- C7: with a positive `MaxBodySize`, the `Body` recorded for a fetched response has
at most `MaxBodySize` bytes and is a prefix of the response body, whatever its size;
this holds for every hop `FollowRedirects` returns, and the hop of a response fetched
after a run of redirects is recorded in any case.  Truncation is silent: a readable
body of a `text/plain` or `text/html` response is recorded as exactly its first
`MaxBodySize` bytes, however long it is; with `MaxRedirects ≥ 1` a trace none of
whose fetches failed returns no error, whatever the sizes of the bodies; and a
response without redirect signal fetched within the bound ends the trace as the hop
at index 0 with no error. -/
theorem body_capped_at_MaxBodySize (r : Requester) (hpos : 0 < r.MaxBodySize) :
    (∀ (u : GoString) (resp : Response),
      ((entryOf r u resp).Body.length : Int) ≤ r.MaxBodySize ∧
      (entryOf r u resp).Body <+: resp.Body.data) ∧
    (∀ (w : World) (url : GoString), ∀ h ∈ (FollowRedirects r w url).responses,
      (h.Body.length : Int) ≤ r.MaxBodySize ∧
      ∃ j x resp, w j x = .ok resp ∧ h.URL = x ∧ h.Body <+: resp.Body.data) ∧
    (∀ (w : World) (url : GoString) (steps : List (GoString × Response)) (v : GoString)
      (resp : Response), RedirectRun r w 0 url steps v →
      steps.length < r.MaxRedirects.toNat → w steps.length v = .ok resp →
      entryOf r v resp ∈ (FollowRedirects r w url).responses) ∧
    (∀ (u : GoString) (resp : Response),
      (hasPrefix (headerGet resp.Header "Content-Type") "text/plain".toList = true ∨
        hasPrefix (headerGet resp.Header "Content-Type") "text/html".toList = true) →
      resp.Body.failAt = none →
      (entryOf r u resp).Body = resp.Body.data.take r.MaxBodySize.toNat) ∧
    (∀ (w : World) (url : GoString), 1 ≤ r.MaxRedirects →
      anyFetchFailed w 0 (FollowRedirects r w url).fetched = false →
      (FollowRedirects r w url).err = none) ∧
    (∀ (w : World) (url : GoString) (steps : List (GoString × Response)) (v : GoString)
      (resp : Response), RedirectRun r w 0 url steps v →
      steps.length < r.MaxRedirects.toNat → w steps.length v = .ok resp →
      nextTarget r resp = none →
      (FollowRedirects r w url).err = none ∧
      (FollowRedirects r w url).responses[0]? = some (entryOf r v resp)) := by
  refine ⟨fun u resp => captureBody_bound r resp hpos, ?_, ?_, ?_, ?_, ?_⟩
  · intro w url h hh
    obtain ⟨j, x, resp, hw, rfl⟩ := FollowRedirects_hop_origin r w url h hh
    exact ⟨(captureBody_bound r resp hpos).1, j, x, resp, hw, rfl,
      (captureBody_bound r resp hpos).2⟩
  · intro w url steps v resp hrun hlen hw
    exact (FollowRedirects_records r w url steps v resp hrun hlen hw).1
  · intro u resp hct hread
    exact captureBody_readable r resp hct hread
  · intro w url hN hok
    exact FollowRedirects_err_none r w url hN hok
  · intro w url steps v resp hrun hlen hw ht
    rw [FollowRedirects_terminal r w url steps v resp hrun hlen hw ht]
    exact ⟨rfl, by simp⟩

theorem body_capped_at_MaxBodySize_witness :
    (0 : Int) < (⟨150, 4, 1⟩ : Requester).MaxBodySize ∧
    (entryOf ⟨150, 4, 1⟩ urlA tenBytes).Body = "0123".toList ∧
    FollowRedirects ⟨150, 4, 1⟩ (fun _ _ => .ok tenBytes) urlA =
      ⟨[⟨urlA, [], [("Content-Type".toList, "text/plain".toList)], "0123".toList⟩],
        none, [urlA]⟩ ∧
    (((entryOf ⟨150, 4, 1⟩ urlA tenBytes).Body.length : Int) ≤
        (⟨150, 4, 1⟩ : Requester).MaxBodySize ∧
      (entryOf ⟨150, 4, 1⟩ urlA tenBytes).Body <+: tenBytes.Body.data) ∧
    (entryOf ⟨150, 4, 1⟩ urlA tenBytes).Body = tenBytes.Body.data.take 4 ∧
    (FollowRedirects ⟨150, 4, 1⟩ (fun _ _ => .ok tenBytes) urlA).err = none :=
  ⟨by decide, by decide, by decide,
    (body_capped_at_MaxBodySize ⟨150, 4, 1⟩ (by decide)).1 urlA tenBytes,
    (body_capped_at_MaxBodySize ⟨150, 4, 1⟩ (by decide)).2.2.2.1 urlA tenBytes
      (Or.inl (by decide)) rfl,
    (body_capped_at_MaxBodySize ⟨150, 4, 1⟩ (by decide)).2.2.2.2.1
      (fun _ _ => .ok tenBytes) urlA (by decide) (by decide)⟩

theorem captureBody_of_readError (r : Requester) (resp : Response)
    (h : readAllLimited resp.Body r.MaxBodySize = none) : captureBody r resp = [] := by
  unfold captureBody
  simp only [h]
  split_ifs <;> rfl

theorem nextTarget_none_of_anomaly (r : Requester) (resp : Response)
    (hns : ¬ StatusRedirect resp)
    (h : hasPrefix (headerGet resp.Header "Content-Type") "text/html".toList = false ∨
      readAllLimited resp.Body r.MaxBodySize = none ∨
      FindStringSubmatch metaRedirectRe (captureBody r resp) = []) :
    nextTarget r resp = none := by
  unfold StatusRedirect at hns
  rcases h with h | h | h
  · simp only [nextTarget, hns, h, Bool.false_eq_true, false_and, if_false]
  · have hb := captureBody_of_readError r resp h
    simp only [nextTarget, hns, hb, List.length_nil, gt_iff_lt, lt_self_iff_false, and_false,
      if_false]
  · simp only [nextTarget, hns, h, if_false]
    split_ifs <;> rfl

/-- C9: `FollowRedirects` returns an error exactly when `MaxRedirects < 1` or one of
the fetches it makes fails.  With `MaxRedirects < 1` nothing is fetched and no hop is
returned.  A response that is no status redirect and has a content type other than
`text/html`, an unreadable body or a body the pattern does not match carries no
redirect signal; fetched within the bound it ends the trace as the hop at index 0,
with an empty `TargetURL` and without error. -/
theorem followRedirects_error_iff (r : Requester) (w : World) (url : GoString) :
    ((FollowRedirects r w url).err ≠ none ↔
      (r.MaxRedirects < 1 ∨ anyFetchFailed w 0 (FollowRedirects r w url).fetched = true)) ∧
    (r.MaxRedirects < 1 →
      (FollowRedirects r w url).fetched = [] ∧ (FollowRedirects r w url).responses = []) ∧
    (∀ resp : Response, ¬ StatusRedirect resp →
      (hasPrefix (headerGet resp.Header "Content-Type") "text/html".toList = false ∨
        readAllLimited resp.Body r.MaxBodySize = none ∨
        FindStringSubmatch metaRedirectRe (captureBody r resp) = []) →
      nextTarget r resp = none ∧
      ∀ (steps : List (GoString × Response)) (v : GoString),
        RedirectRun r w 0 url steps v → steps.length < r.MaxRedirects.toNat →
        w steps.length v = .ok resp →
        (FollowRedirects r w url).err = none ∧
        (FollowRedirects r w url).responses[0]? = some (entryOf r v resp) ∧
        (entryOf r v resp).TargetURL = []) := by
  refine ⟨?_, ?_, ?_⟩
  · by_cases hN : 1 ≤ r.MaxRedirects
    · have hlt : ¬ r.MaxRedirects < 1 := not_lt.2 hN
      obtain ⟨steps, v, hrun, hcase⟩ := FollowRedirects_cases r w url hN
      have hnf := RedirectRun_noFail r w steps 0 url v hrun
      rcases hcase with ⟨_, hres⟩ | ⟨_, resp, hw, _, hres⟩ | ⟨_, e, hw, hres⟩
      · rw [hres]
        simp [hlt, hnf]
      · rw [hres]
        simp only [anyFetchFailed_append, anyFetchFailed, hnf, Nat.zero_add, List.length_map]
        rw [hw]
        simp [hlt, isError]
      · rw [hres]
        simp only [anyFetchFailed_append, anyFetchFailed, hnf, Nat.zero_add, List.length_map]
        rw [hw]
        simp [isError]
    · have hlt : r.MaxRedirects < 1 := not_le.1 hN
      simp [FollowRedirects, hlt]
  · intro hlt
    simp [FollowRedirects, hlt]
  · intro resp hns h
    have ht := nextTarget_none_of_anomaly r resp hns h
    refine ⟨ht, ?_⟩
    intro steps v hrun hlen hw
    rw [FollowRedirects_terminal r w url steps v resp hrun hlen hw ht]
    exact ⟨rfl, by simp, entryOf_target_none r v resp ht⟩

theorem followRedirects_error_iff_witness :
    (FollowRedirects (requester 0) worldAB urlA).err = some "MaxRedirects must be at least 1" ∧
    (FollowRedirects (requester 3) worldSecondFails urlA).err = some "connection reset" ∧
    (FollowRedirects (requester 3) (fun _ _ => .ok unreadablePage) urlA) =
      ⟨[⟨urlA, [], [("Content-Type".toList, "text/html".toList)], []⟩], none, [urlA]⟩ ∧
    (((FollowRedirects (requester 0) worldAB urlA).err ≠ none ↔
      ((requester 0).MaxRedirects < 1 ∨
        anyFetchFailed worldAB 0 (FollowRedirects (requester 0) worldAB urlA).fetched = true)) ∧
    ((requester 0).MaxRedirects < 1 →
      (FollowRedirects (requester 0) worldAB urlA).fetched = [] ∧
      (FollowRedirects (requester 0) worldAB urlA).responses = [])) :=
  ⟨by decide, by decide, by decide,
    (followRedirects_error_iff (requester 0) worldAB urlA).1,
    (followRedirects_error_iff (requester 0) worldAB urlA).2.1⟩

theorem attrTag_lower (t : GoString) :
    attrTag "http-equiv".toList t = metaTag '"' '"' '"' '"' "0".toList t := by
  simp [attrTag, metaTag]

theorem FindStringSubmatch_skip_char (x : Char) (t : List Char) (hx : x ≠ '<') :
    FindStringSubmatch metaRedirectRe (x :: t) = FindStringSubmatch metaRedirectRe t := by
  apply FindStringSubmatch_skip
  cases hm : matchHere metaRedirectRe (x :: t) ⟨[], []⟩ with
  | none => rfl
  | some r =>
    exfalso
    have hpre := matchHere_meta_isPrefix _ _ _ hm
    have hpre2 : ['<', 'm', 'e', 't', 'a'] <+: x :: t := hpre
    rw [List.cons_prefix_cons] at hpre2
    exact hx hpre2.1.symm

theorem FindStringSubmatch_skip_list (X Y : List Char) (hX : ∀ c ∈ X, c ≠ '<') :
    FindStringSubmatch metaRedirectRe (X ++ Y) = FindStringSubmatch metaRedirectRe Y := by
  induction X with
  | nil => rfl
  | cons x X ih =>
    rw [List.cons_append, FindStringSubmatch_skip_char x _ (hX x (by simp))]
    exact ih (fun c hc => hX c (by simp [hc]))

theorem FindStringSubmatch_no_meta (Y : List Char) (hY : ¬ "<meta".toList <:+: Y) :
    FindStringSubmatch metaRedirectRe Y = [] := by
  rcases FindStringSubmatch_meta_sound Y with h | ⟨_, _, _, _, _, pre, ws, q, tl, hs, _⟩
  · exact h
  · exact absurd ⟨pre, _, by rw [hs, List.append_assoc]⟩ hY

theorem FindStringSubmatch_skip_before (P Y : List Char) (hP : ¬ "<meta".toList <:+: P) :
    FindStringSubmatch metaRedirectRe (P ++ ("<meta".toList ++ Y)) =
      FindStringSubmatch metaRedirectRe ("<meta".toList ++ Y) := by
  induction P with
  | nil => rfl
  | cons x P ih =>
    have hno : matchHere metaRedirectRe (x :: (P ++ ("<meta".toList ++ Y))) ⟨[], []⟩ = none := by
      cases hm : matchHere metaRedirectRe (x :: (P ++ ("<meta".toList ++ Y))) ⟨[], []⟩ with
      | none => rfl
      | some r =>
        exfalso
        have hpre := matchHere_meta_isPrefix _ _ _ hm
        exact hP (meta_straddle (x :: P) Y (by simp) hpre)
    rw [List.cons_append, FindStringSubmatch_skip _ _ _ hno]
    exact ih (fun hi => hP (hi.trans (List.infix_cons (List.infix_refl _))))

theorem spelling_char (c : Char) (h : c.toLower ∈ "http-equiv".toList) :
    c ≠ '<' ∧ isSpace c = false := by
  constructor
  · rintro rfl
    revert h
    decide
  · cases hsp : isSpace c with
    | false => rfl
    | true =>
      exfalso
      simp only [isSpace, Bool.or_eq_true, beq_iff_eq] at hsp
      rcases hsp with (((rfl | rfl) | rfl) | rfl) | rfl <;> revert h <;> decide

theorem spaces_then_text (ws A B : List Char) (a b : Char)
    (hws : ∀ x ∈ ws, isSpace x = true) (ha : isSpace a = false) (hb : isSpace b = false)
    (h : ws ++ a :: A = ' ' :: b :: B) : ws = [' '] ∧ a :: A = b :: B := by
  rcases ws with _ | ⟨w0, _ | ⟨w1, ws⟩⟩
  · exfalso
    have ha2 : a = ' ' := by simpa using (List.cons.inj h).1
    rw [ha2] at ha
    exact absurd ha (by decide)
  · have h2 := List.cons.inj h
    exact ⟨by simp [h2.1], h2.2⟩
  · exfalso
    have h2 := List.cons.inj (List.cons.inj h).2
    have hw1 := hws w1 (by simp)
    rw [h2.1] at hw1
    rw [hw1] at hb
    exact absurd hb (by decide)

/-- The pattern does not match at a tag whose attribute name is spelled otherwise
than in lower case. -/
theorem matchHere_attrTag_none (name R : List Char)
    (hname : name.map Char.toLower = "http-equiv".toList) (hne : name ≠ "http-equiv".toList) :
    matchHere metaRedirectRe ("<meta".toList ++ (' ' :: (name ++ ('=' :: R)))) ⟨[], []⟩ = none := by
  cases hm : matchHere metaRedirectRe ("<meta".toList ++ (' ' :: (name ++ ('=' :: R)))) ⟨[], []⟩ with
  | none => rfl
  | some r =>
    exfalso
    obtain ⟨ws, q, tl, _, _, hs, hws, _⟩ := matchHere_meta_inv _ _ r.1 r.2 hm
    have hs2 := List.append_cancel_left hs
    have hlen : name.length = 10 := by
      have := congrArg List.length hname
      simpa using this
    obtain ⟨n0, name2, rfl⟩ : ∃ n0 name2, name = n0 :: name2 := by
      cases name with
      | nil => simp at hlen
      | cons n0 name2 => exact ⟨n0, name2, rfl⟩
    have hn0 : isSpace n0 = false :=
      (spelling_char n0 (by rw [← hname]; simp)).2
    have hsplit : "http-equiv=".toList ++ (q :: ("refresh".toList ++ tl)) =
        'h' :: ("ttp-equiv".toList ++ ('=' :: q :: ("refresh".toList ++ tl))) := by simp
    rw [hsplit] at hs2
    obtain ⟨_, heq⟩ := spaces_then_text ws _ _ 'h' n0 hws (by decide) hn0 hs2.symm
    have heq2 : "http-equiv".toList ++ ('=' :: q :: ("refresh".toList ++ tl)) =
        (n0 :: name2) ++ ('=' :: R) := by simpa using heq
    exact hne (List.append_inj heq2 (by simp [hlen])).1.symm

/-- C10 (counterexample): the upper-case spelling `HTTP-EQUIV` is not matched, and the
hop of an HTML page made of that tag records an empty `TargetURL`, not the target
`https://b.example/` that the lower-case spelling yields. -/
theorem meta_refresh_upper_case_not_matched :
    upperTag = "<meta HTTP-EQUIV=\"refresh\" content=\"0;url=https://b.example/\">".toList ∧
    FindStringSubmatch metaRedirectRe upperTag = [] ∧
    (entryOf (requester 2) urlA (htmlPage upperTag)).TargetURL = [] ∧
    (entryOf (requester 2) urlA (htmlPage upperTag)).TargetURL ≠ urlB ∧
    (entryOf (requester 2) urlA (htmlPage (attrTag "http-equiv".toList urlB))).TargetURL = urlB := by
  decide

/-- C10 (amended): detection is case-sensitive on the attribute name.  For a quote-free
non-empty target `T` and a spelling `NAME` of `http-equiv` in any mix of cases, in a
body `P ++ <meta NAME="refresh" content="0;url=T"> ++ S` with no `<meta` in `P`: the
lower-case spelling is matched with group 1 equal to `T`, and the hop of an HTML
response that is no status redirect records `TargetURL = T`; with any other spelling,
when no `<meta` occurs after the tag's own either, there is no match and the hop of a
response that is no status redirect records an empty `TargetURL`. -/
theorem meta_refresh_is_case_sensitive (P S name t : GoString)
    (hname : name.map Char.toLower = "http-equiv".toList)
    (hP : ¬ "<meta".toList <:+: P) (ht : t ≠ []) (htq : ∀ x ∈ t, x ≠ '"' ∧ x ≠ '\'') :
    (name = "http-equiv".toList →
      FindStringSubmatch metaRedirectRe (P ++ attrTag name t ++ S) = [attrTag name t, t] ∧
      ∀ (r : Requester) (u : GoString) (resp : Response), ¬ StatusRedirect resp →
        hasPrefix (headerGet resp.Header "Content-Type") "text/html".toList = true →
        captureBody r resp = P ++ attrTag name t ++ S →
        (entryOf r u resp).TargetURL = t) ∧
    (name ≠ "http-equiv".toList → ¬ "<meta".toList <:+: t ++ "\">".toList ++ S →
      FindStringSubmatch metaRedirectRe (P ++ attrTag name t ++ S) = [] ∧
      ∀ (r : Requester) (u : GoString) (resp : Response), ¬ StatusRedirect resp →
        captureBody r resp = P ++ attrTag name t ++ S →
        (entryOf r u resp).TargetURL = []) := by
  constructor
  · intro hlow
    subst hlow
    rw [attrTag_lower]
    have hfind := FindStringSubmatch_metaTag P S '"' '"' '"' '"' "0".toList t hP
      (Or.inl rfl) (Or.inl rfl) (Or.inl rfl) (Or.inl rfl) (by decide) (by decide) ht
      (fun x hx => notQuote_of x (htq x hx))
    refine ⟨hfind, ?_⟩
    intro r u resp hns hct hbody
    have hne : captureBody r resp ≠ [] := by
      rw [hbody]
      simp [metaTag]
    exact entryOf_target_some r u resp t
      (nextTarget_of_meta r resp _ t hns hct hne (by rw [hbody]; exact hfind))
  · intro hne hrest
    have hshape : P ++ attrTag name t ++ S =
        P ++ ("<meta".toList ++ (' ' :: (name ++
          ('=' :: ("\"refresh\" content=\"0;url=".toList ++ (t ++ "\">".toList ++ S)))))) := by
      simp [attrTag]
    have hX : ∀ c ∈ "meta ".toList ++ (name ++ "=\"refresh\" content=\"0;url=".toList),
        c ≠ '<' := by
      intro c hc
      rcases List.mem_append.1 hc with h1 | h1
      · rintro rfl
        revert h1
        decide
      · rcases List.mem_append.1 h1 with h2 | h2
        · exact (spelling_char c (by rw [← hname]; exact List.mem_map_of_mem _ h2)).1
        · rintro rfl
          revert h2
          decide
    have hfind : FindStringSubmatch metaRedirectRe (P ++ attrTag name t ++ S) = [] := by
      rw [hshape, FindStringSubmatch_skip_before P _ hP]
      have hno := matchHere_attrTag_none name
        ("\"refresh\" content=\"0;url=".toList ++ (t ++ "\">".toList ++ S)) hname hne
      have hcons : "<meta".toList ++ (' ' :: (name ++
          ('=' :: ("\"refresh\" content=\"0;url=".toList ++ (t ++ "\">".toList ++ S))))) =
          '<' :: (("meta ".toList ++ (name ++ "=\"refresh\" content=\"0;url=".toList)) ++
            (t ++ "\">".toList ++ S)) := by simp
      rw [hcons] at hno ⊢
      rw [FindStringSubmatch_skip _ _ _ hno, FindStringSubmatch_skip_list _ _ hX]
      exact FindStringSubmatch_no_meta _ hrest
    refine ⟨hfind, ?_⟩
    intro r u resp hns hbody
    exact entryOf_target_none r u resp
      (nextTarget_none_of_anomaly r resp hns (Or.inr (Or.inr (by rw [hbody]; exact hfind))))

theorem meta_refresh_is_case_sensitive_witness :
    "Http-Equiv".toList.map Char.toLower = "http-equiv".toList ∧
    (¬ "<meta".toList <:+: "<html>".toList) ∧
    "Http-Equiv".toList ≠ "http-equiv".toList ∧
    (¬ "<meta".toList <:+: urlB ++ "\">".toList ++ "</html>".toList) ∧
    FindStringSubmatch metaRedirectRe
      ("<html>".toList ++ attrTag "Http-Equiv".toList urlB ++ "</html>".toList) = [] ∧
    FindStringSubmatch metaRedirectRe
      ("<html>".toList ++ attrTag "http-equiv".toList urlB ++ "</html>".toList) =
        [attrTag "http-equiv".toList urlB, urlB] :=
  ⟨by decide, by decide, by decide, by decide,
    ((meta_refresh_is_case_sensitive "<html>".toList "</html>".toList "Http-Equiv".toList urlB
      (by decide) (by decide) (by decide) (by decide)).2 (by decide) (by decide)).1,
    ((meta_refresh_is_case_sensitive "<html>".toList "</html>".toList "http-equiv".toList urlB
      (by decide) (by decide) (by decide) (by decide)).1 rfl).1⟩

end Unfurl
